import Mathlib

/-!
Verification development for the trading-system repository
(ProjectTradingSystem): shallow embedding of the order book, matching
engine, risk engine, strategies and backtester, together with theorems
about the properties claimed of them.

Conventions of the embedding:
* Python floats are modelled as `ℚ` (every comparison the code performs is
  on stored values, so ordering behaviour coincides); `NaN` cells of a
  pandas column are modelled as `none` of an `Option` type.
* Python dicts are modelled as association lists with first-match lookup
  and in-place update.
* `random.random()` / `random.randint` draws are passed in as explicit
  parameters, constrained by the documented range of the library call.
* Wall-clock fields (`ts`, timestamps) are never read by any of the logic
  under verification and are omitted from the records.
-/

namespace TradingSystem

/-- Order side, as the `"BUY"`/`"SELL"` strings used throughout the source. -/
inductive Side where
  | BUY
  | SELL
deriving DecidableEq, Repr

/-- strategy.py `SignalType`. -/
inductive SignalType where
  | BUY
  | SELL
  | HOLD
deriving DecidableEq, Repr

/-- Association-list lookup, modelling Python `dict.get(k)` (keys are kept
unique by `alSet`). -/
def alGet {α β : Type} [DecidableEq α] : List (α × β) → α → Option β
  | [], _ => none
  | (k, v) :: rest, k' => if k = k' then some v else alGet rest k'

/-- Association-list update, modelling Python `dict[k] = v`. -/
def alSet {α β : Type} [DecidableEq α] : List (α × β) → α → β → List (α × β)
  | [], k, v => [(k, v)]
  | (k0, v0) :: rest, k, v =>
    if k0 = k then (k, v) :: rest else (k0, v0) :: alSet rest k v

/-! ## Matching engine (matching_engine.py) -/

/-- Execution status returned by `MatchingEngine.simulate_execution`
(`"FILLED"`, `"PARTIAL"`, `"CANCELLED"` in the source). -/
inductive ExecStatus where
  | Filled
  | PartialFill
  | Cancelled
deriving DecidableEq, Repr

/-- Result dictionary of `simulate_execution`. -/
structure ExecResult where
  status : ExecStatus
  qty : ℤ
  price : Option ℚ
deriving DecidableEq, Repr

/-- Step 3 of `MatchingEngine.simulate_execution`: the random execution
outcome.  `u` is the `random.random()` draw, `partialDraw` the
`random.randint(1, order.qty - 1)` draw (only consulted on the partial
branch), `fillPrice` the price determined by the synthetic book in steps
1-2 (its construction is irrelevant to the outcome logic and is not
modelled). -/
def simulateOutcome (orderQty : ℤ) (fillPrice : Option ℚ) (u : ℚ) (partialDraw : ℤ) :
    ExecResult :=
  if u < 1/10 then ⟨.Cancelled, 0, none⟩
  else if u < 7/10 ∧ 1 < orderQty then ⟨.PartialFill, partialDraw, fillPrice⟩
  else ⟨.Filled, orderQty, fillPrice⟩

/-! ## Risk engine (risk_engine.py, class RiskEngineSim) -/

/-- order.py `Order` dataclass, restricted to the fields the risk engine
reads (`ts`/`id` are carried verbatim by the source and never consulted). -/
structure Order where
  side : Side
  symbol : String
  qty : ℤ
  price : ℚ
deriving DecidableEq, Repr

/-- `RiskEngineSim` state.  `max_total_buy`/`max_total_sell` default to
`float("inf")` in the source; `none` models that absent cap. -/
structure RiskState where
  max_order_size : ℤ
  max_position : ℤ
  cash_balance : ℚ
  max_total_buy : Option ℤ
  max_total_sell : Option ℤ
  positions : List (String × List Order)
  buy_totals : List (String × ℤ)
  sell_totals : List (String × ℤ)
deriving DecidableEq, Repr

/-- Fresh `RiskEngineSim.__init__` state. -/
def RiskState.init (mos maxPos : ℤ) (cash : ℚ) (mtb mts : Option ℤ) : RiskState :=
  ⟨mos, maxPos, cash, mtb, mts, [], [], []⟩

/-- `sum(o.qty if o.side == "BUY" else -o.qty for o in self.positions.get(symbol, []))`. -/
def currentNet (st : RiskState) (symbol : String) : ℤ :=
  ((alGet st.positions symbol).getD []).foldl
    (fun acc o => acc + (if o.side = Side.BUY then o.qty else -o.qty)) 0

/-- Cumulative-cap test: `current + order.qty > cap` fails; an absent cap
(`float("inf")`) never fails. -/
def totalOk (cap : Option ℤ) (current q : ℤ) : Bool :=
  match cap with
  | none => true
  | some c => decide (current + q ≤ c)

/-- `RiskEngineSim.check(order)`.  Pure by construction: it takes the state
by value and returns only the boolean, mirroring that the source method
never assigns engine state (its only side effect is logging). -/
def check (st : RiskState) (o : Order) : Bool :=
  if st.max_order_size < o.qty then false
  else
    if st.max_position <
        |currentNet st o.symbol + (if o.side = Side.BUY then o.qty else -o.qty)| then false
    else if o.side = Side.BUY then
      if ¬ totalOk st.max_total_buy ((alGet st.buy_totals o.symbol).getD 0) o.qty then false
      else if st.cash_balance < (o.qty : ℚ) * o.price then false
      else true
    else
      if ¬ totalOk st.max_total_sell ((alGet st.sell_totals o.symbol).getD 0) o.qty then false
      else true

/-- `RiskEngineSim.update_position(order, filled_qty)`.  `filled_qty = None`
defaults to `order.qty`; non-positive fills return without mutating. -/
def update_position (st : RiskState) (o : Order) (filled_qty : Option ℤ) : RiskState :=
  let qty := filled_qty.getD o.qty
  if qty ≤ 0 then st
  else
    let st1 := { st with
      positions := alSet st.positions o.symbol
        (((alGet st.positions o.symbol).getD []) ++ [{ o with qty := qty }]) }
    if o.side = Side.BUY then
      { st1 with
        buy_totals := alSet st1.buy_totals o.symbol
          ((alGet st1.buy_totals o.symbol).getD 0 + qty),
        cash_balance := st1.cash_balance - (qty : ℚ) * o.price }
    else
      { st1 with
        sell_totals := alSet st1.sell_totals o.symbol
          ((alGet st1.sell_totals o.symbol).getD 0 + qty),
        cash_balance := st1.cash_balance + (qty : ℚ) * o.price }

/-- A sequence of `update_position` calls. -/
def runUpdates (st : RiskState) (calls : List (Order × Option ℤ)) : RiskState :=
  calls.foldl (fun s c => update_position s c.1 c.2) st

/-- Effective filled quantity of an `update_position` call. -/
def effQty (c : Order × Option ℤ) : ℤ := c.2.getD c.1.qty

/-- Total filled buy notional over a call sequence. -/
def buyNotional (calls : List (Order × Option ℤ)) : ℚ :=
  (calls.map (fun c => if c.1.side = Side.BUY then (effQty c : ℚ) * c.1.price else 0)).sum

/-- Total filled sell notional over a call sequence. -/
def sellNotional (calls : List (Order × Option ℤ)) : ℚ :=
  (calls.map (fun c => if c.1.side = Side.SELL then (effQty c : ℚ) * c.1.price else 0)).sum

/-! ## Backtester fill accounting (backtester.py) -/

/-- The `Backtester` accounting fields read and written by `_handle_fill`
and `_mark_to_market` (`_open_trade_start`, the logs and the completed
`TradeRecord`s do not feed back into the accounting). -/
structure BTState where
  cash : ℚ
  position : ℤ
  avg_entry_price : ℚ
  realized_pnl : ℚ
deriving DecidableEq, Repr

/-- `Backtester._handle_fill(timestamp, side, qty, price)`. -/
def handleFill (s : BTState) (side : Side) (qty : ℤ) (price : ℚ) : BTState :=
  if qty ≤ 0 then s
  else if side = Side.BUY then
    let total := s.position + qty
    let avg :=
      if 0 < total then (s.avg_entry_price * s.position + price * qty) / total
      else s.avg_entry_price
    { s with position := total, avg_entry_price := avg, cash := s.cash - (qty : ℚ) * price }
  else
    let close := min qty s.position
    if close = 0 then s
    else
      let pnl := (price - s.avg_entry_price) * close
      let pos := s.position - close
      { cash := s.cash + (close : ℚ) * price,
        position := pos,
        avg_entry_price := if pos = 0 then 0 else s.avg_entry_price,
        realized_pnl := s.realized_pnl + pnl }

/-- Fold a list of fill events (side, qty, price) from the reset state. -/
def runFills (initialCapital : ℚ) (events : List (Side × ℤ × ℚ)) : BTState :=
  events.foldl (fun s e => handleFill s e.1 e.2.1 e.2.2) ⟨initialCapital, 0, 0, 0⟩

/-! ## Moving-average crossover strategy (strategy.py, MAStrategy) -/

/-- One bar of the `MAStrategy` data frame: the `MA_20`, `MA_50` and
`Close` columns (`none` models a NaN moving-average cell; the `Close`
value is read unconditionally by the source). -/
structure MARow where
  maShort : Option ℚ
  maLong : Option ℚ
  close : ℚ
deriving DecidableEq, Repr

/-- One iteration of the `MAStrategy.generate_signals` loop body: given the
current `self.position` and the previous/current rows, the emitted signal
(if any) and the next `self.position`. -/
def maStep (pos : ℕ) (prev curr : MARow) : Option SignalType × ℕ :=
  match prev.maShort, prev.maLong, curr.maShort, curr.maLong with
  | some ps, some pl, some cs, some cl =>
    if ps ≤ pl ∧ cl < cs ∧ pos = 0 then (some SignalType.BUY, 1)
    else if pl ≤ ps ∧ cs < cl ∧ pos = 1 then (some SignalType.SELL, 0)
    else (none, pos)
  | _, _, _, _ => (none, pos)

/-- Value of `self.position` after the `generate_signals` loop has
processed bars `1 .. i` (position starts at 0; out-of-range indices leave
it unchanged, exactly as the loop simply ends). -/
def maPosAfter (rows : List MARow) : ℕ → ℕ
  | 0 => 0
  | i + 1 =>
    match rows[i]?, rows[i+1]? with
    | some p, some c => (maStep (maPosAfter rows i) p c).2
    | _, _ => maPosAfter rows i

/-- The signal `generate_signals` appends while processing bar `i`
(`none` when the bar emits nothing; bar 0 is never processed). -/
def maEmitAt (rows : List MARow) : ℕ → Option SignalType
  | 0 => none
  | i + 1 =>
    match rows[i]?, rows[i+1]? with
    | some p, some c => (maStep (maPosAfter rows i) p c).1
    | _, _ => none

/-- Modelled from the words of the claim (for comparison with the code):
the bar-`i` SELL condition "previous short average was greater than the
previous long average, current short average less than or equal to the
current long average, and position == 1". -/
def maSellClaim (rows : List MARow) : ℕ → Bool
  | 0 => false
  | i + 1 =>
    match rows[i]?, rows[i+1]? with
    | some p, some c =>
      match p.maShort, p.maLong, c.maShort, c.maLong with
      | some ps, some pl, some cs, some cl =>
        decide (pl < ps ∧ cs ≤ cl ∧ maPosAfter rows i = 1)
      | _, _, _, _ => false
    | _, _ => false

/-- Concrete moving-average series refuting the claim's SELL boundary:
bar 1 crosses up (BUY), bar 2 touches equality, bar 3 crosses down from
equality. -/
def maEx : List MARow :=
  [⟨some 1, some 2, 10⟩, ⟨some 3, some 2, 11⟩, ⟨some 2, some 2, 12⟩, ⟨some 1, some 2, 13⟩]

/-! ## Momentum strategy (strategy.py, MomentumStrategy) -/

/-- One bar of the `MomentumStrategy` data frame: the `Momentum` and
`Returns` columns (`none` models NaN) and `Close`. -/
structure MomRow where
  momentum : Option ℚ
  returns : Option ℚ
  close : ℚ
deriving DecidableEq, Repr

/-- One iteration of the `MomentumStrategy.generate_signals` loop body,
with `θ` the `momentum_threshold`. -/
def momStep (θ : ℚ) (pos : ℕ) (prev curr : MomRow) : Option SignalType × ℕ :=
  match prev.momentum, curr.momentum, curr.returns with
  | some pm, some cm, some ret =>
    if pm ≤ θ ∧ θ < cm ∧ 0 < ret ∧ pos = 0 then (some SignalType.BUY, 1)
    else if cm < -θ ∧ pos = 1 then (some SignalType.SELL, 0)
    else (none, pos)
  | _, _, _ => (none, pos)

/-- `self.position` after the momentum loop has processed bars `1 .. i`. -/
def momPosAfter (θ : ℚ) (rows : List MomRow) : ℕ → ℕ
  | 0 => 0
  | i + 1 =>
    match rows[i]?, rows[i+1]? with
    | some p, some c => (momStep θ (momPosAfter θ rows i) p c).2
    | _, _ => momPosAfter θ rows i

/-- The signal the momentum loop appends while processing bar `i`. -/
def momEmitAt (θ : ℚ) (rows : List MomRow) : ℕ → Option SignalType
  | 0 => none
  | i + 1 =>
    match rows[i]?, rows[i+1]? with
    | some p, some c => (momStep θ (momPosAfter θ rows i) p c).1
    | _, _ => none

/-- Modelled from the words of the claim (for comparison with the code):
the bar-`i` BUY condition "previous momentum not above the threshold,
current momentum strictly above the threshold, and position == 0". -/
def momBuyClaim (θ : ℚ) (rows : List MomRow) : ℕ → Bool
  | 0 => false
  | i + 1 =>
    match rows[i]?, rows[i+1]? with
    | some p, some c =>
      match p.momentum, c.momentum with
      | some pm, some cm => decide (pm ≤ θ ∧ θ < cm ∧ momPosAfter θ rows i = 0)
      | _, _ => false
    | _, _ => false

/-- Concrete momentum series refuting the claim's BUY condition: bar 1
crosses the threshold upward while flat, but its `Returns` value is
negative, so the code emits nothing. -/
def momEx : List MomRow :=
  [⟨some 0, some 0, 10⟩, ⟨some 1, some (-1), 10⟩]

/-! ## Z-score mean-reversion strategy (strategy.py, StatisticalSignalStrategy) -/

/-- Mean of a full lookback window (`rolling(window).mean()`). -/
def rollingMean (w : List ℚ) : ℚ := w.sum / (w.length : ℚ)

/-- Variance used by `rolling(window).std()`: pandas `Series.std` defaults
to `ddof=1`, so this is the sample variance `Σ (x - mean)² / (N - 1)`. -/
def sampleVar (w : List ℚ) : ℚ :=
  ((w.map (fun x => (x - rollingMean w) ^ 2)).sum) / ((w.length : ℚ) - 1)

/-- Modelled from the words of the claim (for comparison with the code):
the population variance `Σ (x - mean)² / N`. -/
def popVar (w : List ℚ) : ℚ :=
  ((w.map (fun x => (x - rollingMean w) ^ 2)).sum) / (w.length : ℚ)

/-- The `Z_Score` cell the code computes for a full window `w` whose last
element is the bar's close: `(Close - Price_Mean) / Price_Std` with
`Price_Std = sqrt` of the `ddof=1` variance.  When the std is 0 the
float quotient is `0.0/0.0 = NaN` (the numerator is then also 0, every
window value being equal to the mean), modelled as `none`. -/
noncomputable def zScoreCode (w : List ℚ) : Option ℝ :=
  if sampleVar w = 0 then none
  else some ((((w.getLast?.getD 0 : ℚ) : ℝ) - ((rollingMean w : ℚ) : ℝ))
    / Real.sqrt ((sampleVar w : ℚ) : ℝ))

/-- Modelled from the words of the claim (for comparison with the code):
the z-score computed with the population standard deviation instead. -/
noncomputable def zScoreClaim (w : List ℚ) : Option ℝ :=
  if popVar w = 0 then none
  else some ((((w.getLast?.getD 0 : ℚ) : ℝ) - ((rollingMean w : ℚ) : ℝ))
    / Real.sqrt ((popVar w : ℚ) : ℝ))

/-- One iteration of `StatisticalSignalStrategy.generate_signals`: bars
whose previous or current z-score is NaN are skipped. -/
noncomputable def zsStep (θ : ℝ) (pos : ℕ) (prevZ currZ : Option ℝ) : Option SignalType × ℕ :=
  match prevZ, currZ with
  | some pz, some cz =>
    if cz < -θ ∧ pos = 0 then (some SignalType.BUY, 1)
    else if pos = 1 ∧ pz < 0 ∧ 0 ≤ cz then (some SignalType.SELL, 0)
    else (none, pos)
  | _, _ => (none, pos)

/-! ## Order book (orderbook.py)

The two Python heaps hold `(price_key, seq, order_id, version)` tuples and
are consulted exclusively through `heap[0]` / `heappop` / `heappush`.  A
binary min-heap with that interface is observationally a sorted sequence,
so `heapq` is modelled by a list kept sorted under the tuple's
lexicographic order: `heappush` is ordered insertion, `heappop` drops the
head, `heap[0]` reads the head. -/

/-- A heap element `(price_key, seq, order_id, version)`. -/
structure Entry where
  priceKey : ℚ
  seq : ℕ
  oid : ℕ
  ver : ℕ
deriving DecidableEq, Repr

/-- The lexicographic key realising Python's tuple comparison. -/
def Entry.key (e : Entry) : Lex (ℚ × Lex (ℕ × Lex (ℕ × ℕ))) :=
  toLex (e.priceKey, toLex (e.seq, toLex (e.oid, e.ver)))

/-- Python tuple ordering on heap elements. -/
def entryLE (a b : Entry) : Prop := a.key ≤ b.key

instance : DecidableRel entryLE := fun a b =>
  inferInstanceAs (Decidable (a.key ≤ b.key))

instance : IsTotal Entry entryLE := ⟨fun a b => le_total a.key b.key⟩

instance : IsTrans Entry entryLE := ⟨fun _ _ _ h1 h2 => le_trans h1 h2⟩

/-- `heapq.heappush`, on the sorted-list model of the heap. -/
def hpush (h : List Entry) (e : Entry) : List Entry := h.orderedInsert entryLE e

/-- The per-order record kept in `self.orders` (`symbol` and `ts` are
stored but never read by the book logic and are omitted). -/
structure BookRec where
  order_id : ℕ
  side : Side
  price : ℚ
  qty : ℤ
  active : Bool
  seq : ℕ
  version : ℕ
deriving DecidableEq, Repr

/-- The heap element `_push` builds for a record: price key negated for
bids so the min-heap yields the best bid first. -/
def priceKeyOf (r : BookRec) : ℚ := if r.side = Side.BUY then -r.price else r.price

/-- The `(price_key, seq, order_id, version)` tuple pushed for a record. -/
def entryOf (r : BookRec) : Entry := ⟨priceKeyOf r, r.seq, r.order_id, r.version⟩

/-- The whole `OrderBook` state. -/
structure OrderBook where
  bids : List Entry
  asks : List Entry
  orders : List (ℕ × BookRec)
  seq : ℕ
deriving DecidableEq, Repr

/-- `OrderBook.__init__`. -/
def OrderBook.empty : OrderBook := ⟨[], [], [], 0⟩

/-- The opposite side (`counter_side` in `_match`). -/
def Side.counter : Side → Side
  | Side.BUY => Side.SELL
  | Side.SELL => Side.BUY

/-- The heap serving a given side. -/
def heapOf (ob : OrderBook) : Side → List Entry
  | Side.BUY => ob.bids
  | Side.SELL => ob.asks

/-- Replace the heap serving a given side. -/
def setHeap (ob : OrderBook) : Side → List Entry → OrderBook
  | Side.BUY, h => { ob with bids := h }
  | Side.SELL, h => { ob with asks := h }

/-- `OrderBook._push(rec)`. -/
def OrderBook.push (ob : OrderBook) (r : BookRec) : OrderBook :=
  setHeap ob r.side (hpush (heapOf ob r.side) (entryOf r))

/-- The `_best` liveness test on a heap element: the record exists, is
active with positive quantity, carries the element's version, and sits on
the queried side. -/
def validEntry (orders : List (ℕ × BookRec)) (side : Side) (e : Entry) : Option BookRec :=
  match alGet orders e.oid with
  | none => none
  | some r =>
    if r.active = true ∧ 0 < r.qty ∧ r.version = e.ver ∧ r.side = side then some r else none

/-- The scan inside `OrderBook._best`: pop stale heads until a live one is
found; returns the live record (if any) and the pruned heap. -/
def bestAux (orders : List (ℕ × BookRec)) (side : Side) : List Entry → Option BookRec × List Entry
  | [] => (none, [])
  | e :: rest =>
    match validEntry orders side e with
    | some r => (some r, e :: rest)
    | none => bestAux orders side rest

/-- `OrderBook._best(side)`: the live best record and the book with the
pruned heap written back. -/
def OrderBook.best (ob : OrderBook) (side : Side) : Option BookRec × OrderBook :=
  let res := bestAux ob.orders side (heapOf ob side)
  (res.1, setHeap ob side res.2)

/-- `OrderBook._crosses(incoming, resting_price)`. -/
def crosses (inc : BookRec) (restingPrice : ℚ) : Bool :=
  if inc.side = Side.BUY then decide (restingPrice ≤ inc.price)
  else decide (inc.price ≤ restingPrice)

/-- A trade record from `_record_trade` (the wall-clock `ts` omitted). -/
structure Trade where
  buy_id : ℕ
  sell_id : ℕ
  price : ℚ
  qty : ℤ
deriving DecidableEq, Repr

/-- The `while incoming["qty"] > 0` loop of `OrderBook._match`.  `fuel`
bounds the number of iterations; each iteration trades at least one unit
(the best resting record has positive quantity), so `inc.qty.toNat + 1`
fuel is never exhausted.  The incoming record is threaded locally and not
re-read from `orders` during the loop, faithfully to the source: `_best`
scans only the counter side, whose validity test rejects the incoming
order's own record by its side. -/
def matchLoop : ℕ → OrderBook → BookRec → List Trade → OrderBook × BookRec × List Trade
  | 0, ob, inc, acc => (ob, inc, acc)
  | fuel + 1, ob, inc, acc =>
    if 0 < inc.qty then
      match ob.best inc.side.counter with
      | (some r, ob1) =>
        if crosses inc r.price then
          let tradeQty := min inc.qty r.qty
          let r1 := { r with qty := r.qty - tradeQty }
          let r2 := if r1.qty ≤ 0 then { r1 with active := false } else r1
          let ob2 := { ob1 with orders := alSet ob1.orders r.order_id r2 }
          let t : Trade :=
            { buy_id := if inc.side = Side.BUY then inc.order_id else r.order_id,
              sell_id := if inc.side = Side.SELL then inc.order_id else r.order_id,
              price := r.price,
              qty := tradeQty }
          matchLoop fuel ob2 { inc with qty := inc.qty - tradeQty } (acc ++ [t])
        else (ob1, inc, acc)
      | (none, ob1) => (ob1, inc, acc)
    else (ob, inc, acc)

/-- `OrderBook._match(incoming)` followed by the write-back of the
incoming record's final quantity/activity into `orders` (in Python the
two are aliased; nothing reads the incoming record through `orders`
during the loop, see `matchLoop`). -/
def matchIncoming (ob : OrderBook) (inc : BookRec) : OrderBook × List Trade :=
  let res := matchLoop (inc.qty.toNat + 1) ob inc []
  let inc1 := res.2.1
  let inc2 := if inc1.qty ≤ 0 then { inc1 with active := false } else inc1
  ({ res.1 with orders := alSet res.1.orders inc2.order_id inc2 }, res.2.2)

/-- The caller-supplied order fields `_normalize` reads. -/
structure IncomingOrder where
  order_id : ℕ
  side : Side
  price : ℚ
  qty : ℤ
deriving DecidableEq, Repr

/-- `OrderBook._normalize(order)`: fresh sequence number, version one more
than any prior record under the same id. -/
def normalize (ob : OrderBook) (o : IncomingOrder) : OrderBook × BookRec :=
  let version := (match alGet ob.orders o.order_id with
    | some r => r.version
    | none => 0) + 1
  ({ ob with seq := ob.seq + 1 },
   { order_id := o.order_id, side := o.side, price := o.price, qty := o.qty,
     active := true, seq := ob.seq + 1, version := version })

/-- `OrderBook.add_order(order)`. -/
def add_order (ob : OrderBook) (o : IncomingOrder) : OrderBook × List Trade :=
  let res := normalize ob o
  let ob2 := { res.1 with orders := alSet res.1.orders res.2.order_id res.2 }
  matchIncoming (ob2.push res.2) res.2

/-- `OrderBook.modify_order(order_id, new_qty, new_price)`. -/
def modify_order (ob : OrderBook) (oid : ℕ) (newQty : Option ℤ) (newPrice : Option ℚ) :
    OrderBook × List Trade :=
  match alGet ob.orders oid with
  | none => (ob, [])
  | some r =>
    if r.active = true then
      let r1 := { r with qty := newQty.getD r.qty, price := newPrice.getD r.price,
                         seq := ob.seq + 1, version := r.version + 1 }
      let ob1 := { ob with orders := alSet ob.orders oid r1, seq := ob.seq + 1 }
      matchIncoming (ob1.push r1) r1
    else (ob, [])

/-- `OrderBook.cancel_order(order_id)`. -/
def cancel_order (ob : OrderBook) (oid : ℕ) : OrderBook × Bool :=
  match alGet ob.orders oid with
  | none => (ob, false)
  | some r =>
    if r.active = true then
      let r1 := { r with active := false, qty := 0, version := r.version + 1 }
      ({ ob with orders := alSet ob.orders oid r1 }, true)
    else (ob, false)

/-- `OrderBook.best_bid()` (the lazily pruned heap it also writes back
changes no observable value and is dropped). -/
def best_bid (ob : OrderBook) : Option ℚ := (ob.best Side.BUY).1.map (fun r => r.price)

/-- `OrderBook.best_ask()`. -/
def best_ask (ob : OrderBook) : Option ℚ := (ob.best Side.SELL).1.map (fun r => r.price)

/-- The records `OrderBook.depth()` aggregates: it iterates
`self.orders.values()` and skips inactive or non-positive-quantity
records; the retained records' quantities are then summed per price
level. -/
def depthRecs (ob : OrderBook) : List BookRec :=
  (ob.orders.map Prod.snd).filter (fun r => r.active = true ∧ 0 < r.qty)

/-- One public order-book call. -/
inductive Cmd where
  | add (o : IncomingOrder)
  | modify (oid : ℕ) (newQty : Option ℤ) (newPrice : Option ℚ)
  | cancel (oid : ℕ)
deriving DecidableEq, Repr

/-- Apply one public call, keeping the resulting book. -/
def stepCmd (ob : OrderBook) : Cmd → OrderBook
  | Cmd.add o => (add_order ob o).1
  | Cmd.modify oid q p => (modify_order ob oid q p).1
  | Cmd.cancel oid => (cancel_order ob oid).1

/-- Run a sequence of public calls from the empty book. -/
def runCmds (cs : List Cmd) : OrderBook := cs.foldl stepCmd OrderBook.empty

/-! ### Order-book invariants -/

/-- A record currently resting live in the book. -/
def liveRec (ob : OrderBook) (r : BookRec) : Prop :=
  alGet ob.orders r.order_id = some r ∧ r.active = true ∧ 0 < r.qty

/-- No live bid is priced at or above a live ask. -/
def Uncrossed (ob : OrderBook) : Prop :=
  ∀ b s, liveRec ob b → liveRec ob s → b.side = Side.BUY → s.side = Side.SELL →
    b.price < s.price

/-- `Uncrossed` restricted to pairs avoiding a given id (used while that
id's incoming order is still being matched). -/
def UncrossedExcept (ob : OrderBook) (oid : ℕ) : Prop :=
  ∀ b s, liveRec ob b → liveRec ob s → b.side = Side.BUY → s.side = Side.SELL →
    b.order_id ≠ oid → s.order_id ≠ oid → b.price < s.price

/-- The map key of every stored record is its own id. -/
def KeysOk (ob : OrderBook) : Prop :=
  ∀ k r, alGet ob.orders k = some r → r.order_id = k

/-- Every heap element refers to a stored record and is no newer than it. -/
def VerBound (ob : OrderBook) : Prop :=
  ∀ side, ∀ e ∈ heapOf ob side, ∃ r, alGet ob.orders e.oid = some r ∧ e.ver ≤ r.version

/-- A heap element carrying its record's current version is exactly the
element pushed for that record, on that record's side. -/
def EntryFaithful (ob : OrderBook) : Prop :=
  ∀ side, ∀ e ∈ heapOf ob side, ∀ r, alGet ob.orders e.oid = some r → e.ver = r.version →
    e = entryOf r ∧ r.side = side

/-- Every live record's current heap element is present on its side. -/
def Complete (ob : OrderBook) : Prop :=
  ∀ r, liveRec ob r → entryOf r ∈ heapOf ob r.side

/-- The full order-book invariant preserved by every public call. -/
structure Inv (ob : OrderBook) : Prop where
  keys : KeysOk ob
  sortedBids : List.Sorted entryLE ob.bids
  sortedAsks : List.Sorted entryLE ob.asks
  verBound : VerBound ob
  faithful : EntryFaithful ob
  complete : Complete ob
  uncrossed : Uncrossed ob

/-- The invariant maintained while the matching loop of order `oid` runs:
everything of `Inv` except that pairs involving `oid` itself may cross
(the incoming order has not finished matching). -/
structure LoopInv (ob : OrderBook) (oid : ℕ) : Prop where
  keys : KeysOk ob
  sortedBids : List.Sorted entryLE ob.bids
  sortedAsks : List.Sorted entryLE ob.asks
  verBound : VerBound ob
  faithful : EntryFaithful ob
  complete : Complete ob
  uncrossedX : UncrossedExcept ob oid

/-! ## Theorems -/

/-- The cumulative-cap test unfolded: it passes exactly when the running
total plus the order quantity stays within the cap, an absent cap never
binding. -/
theorem totalOk_iff (cap : Option ℤ) (current q : ℤ) :
    totalOk cap current q = true ↔ ∀ c ∈ cap, current + q ≤ c := by
  cases cap <;> simp [totalOk]

/-- C3: for every order quantity at least 1 and every realization of the
random draws (`u` the uniform draw, `r` the `randint(1, qty-1)` draw,
constrained to its documented range when consulted), the simulated
execution status is FILLED, PARTIAL or CANCELLED; FILLED returns the full
quantity, PARTIAL a quantity strictly between 0 and the order quantity,
CANCELLED zero; and a one-share order is never PARTIAL. -/
theorem simulate_execution_contract (q : ℤ) (fp : Option ℚ) (u : ℚ) (r : ℤ)
    (hq : 1 ≤ q) (hr : 1 < q → 1 ≤ r ∧ r ≤ q - 1) :
    ((simulateOutcome q fp u r).status = ExecStatus.Filled ∨
      (simulateOutcome q fp u r).status = ExecStatus.PartialFill ∨
      (simulateOutcome q fp u r).status = ExecStatus.Cancelled) ∧
    ((simulateOutcome q fp u r).status = ExecStatus.Filled →
      (simulateOutcome q fp u r).qty = q) ∧
    ((simulateOutcome q fp u r).status = ExecStatus.PartialFill →
      0 < (simulateOutcome q fp u r).qty ∧ (simulateOutcome q fp u r).qty < q) ∧
    ((simulateOutcome q fp u r).status = ExecStatus.Cancelled →
      (simulateOutcome q fp u r).qty = 0) ∧
    (q = 1 → (simulateOutcome q fp u r).status ≠ ExecStatus.PartialFill) := by
  unfold simulateOutcome
  split_ifs with h1 h2
  · refine ⟨Or.inr (Or.inr rfl), ?_, ?_, fun _ => rfl, ?_⟩ <;> intro h <;> simp_all
  · have hb := hr h2.2
    refine ⟨Or.inr (Or.inl rfl), ?_, fun _ => ⟨show (0:ℤ) < r by omega, show r < q by omega⟩,
      ?_, ?_⟩
    · intro h; simp_all
    · intro h; simp_all
    · intro hq1; exact absurd h2.2 (by omega)
  · refine ⟨Or.inl rfl, fun _ => rfl, ?_, ?_, ?_⟩ <;> intro h <;> simp_all

/-- Witness for C3 at a concrete partial fill. -/
theorem simulate_execution_contract_witness :
    0 < (simulateOutcome 3 none (1/2) 1).qty ∧ (simulateOutcome 3 none (1/2) 1).qty < 3 :=
  (simulate_execution_contract 3 none (1/2) 1 (by decide) (fun _ => by decide)).2.2.1
    (by with_unfolding_all rfl)

/-- C4: `check` (pure by construction of the embedding, mirroring that the
source method never writes engine state) accepts exactly when the order
size, prospective net position, side-cumulative total and (for buys) cash
constraints all hold; and the concrete scenario: on a fresh engine with
`max_order_size=10, max_position=10, cash=100`, `check(BUY qty=5
price=10)` holds, a 5-share fill at 10 drops cash to 50, and
`check(BUY qty=10 price=10)` then fails. -/
theorem risk_check_contract :
    (∀ st o, check st o = true ↔
      (o.qty ≤ st.max_order_size ∧
       |currentNet st o.symbol + (if o.side = Side.BUY then o.qty else -o.qty)|
         ≤ st.max_position ∧
       (o.side = Side.BUY →
         (∀ c ∈ st.max_total_buy, (alGet st.buy_totals o.symbol).getD 0 + o.qty ≤ c) ∧
         (o.qty : ℚ) * o.price ≤ st.cash_balance) ∧
       (o.side = Side.SELL →
         ∀ c ∈ st.max_total_sell, (alGet st.sell_totals o.symbol).getD 0 + o.qty ≤ c))) ∧
    check (RiskState.init 10 10 100 none none) ⟨Side.BUY, "X", 5, 10⟩ = true ∧
    (update_position (RiskState.init 10 10 100 none none)
      ⟨Side.BUY, "X", 5, 10⟩ (some 5)).cash_balance = 50 ∧
    check (update_position (RiskState.init 10 10 100 none none)
      ⟨Side.BUY, "X", 5, 10⟩ (some 5)) ⟨Side.BUY, "X", 10, 10⟩ = false := by
  refine ⟨fun st o => ?_, by with_unfolding_all rfl, by with_unfolding_all rfl,
    by with_unfolding_all rfl⟩
  rcases hside : o.side with _ | _ <;>
    simp only [check, hside, totalOk_iff] <;>
    split_ifs with h1 h2 h3 h4 <;>
    simp_all <;>
    constructor <;>
    intro h <;>
    simp_all <;>
    omega

/-- Witness for C4's characterization at the concrete accepted order. -/
theorem risk_check_contract_witness :
    check (RiskState.init 10 10 100 none none) ⟨Side.BUY, "X", 5, 10⟩ = true :=
  (risk_check_contract.1 (RiskState.init 10 10 100 none none)
    ⟨Side.BUY, "X", 5, 10⟩).mpr
    ⟨by decide, by decide,
     fun _ => ⟨by simp [RiskState.init], of_decide_eq_true (by with_unfolding_all rfl)⟩,
     fun h => absurd h (by decide)⟩

/-- Cash evolution of a single `update_position` call with a nonnegative
effective fill. -/
theorem update_position_cash (st : RiskState) (c : Order × Option ℤ)
    (h : 0 ≤ effQty c) :
    (update_position st c.1 c.2).cash_balance
      = st.cash_balance
        - (if c.1.side = Side.BUY then (effQty c : ℚ) * c.1.price else 0)
        + (if c.1.side = Side.SELL then (effQty c : ℚ) * c.1.price else 0) := by
  by_cases hq : c.2.getD c.1.qty ≤ 0
  · have h0 : c.2.getD c.1.qty = 0 := le_antisymm hq (by unfold effQty at h; exact h)
    unfold effQty
    rw [h0]
    simp [update_position, hq]
  · rcases hside : c.1.side with _ | _ <;>
      unfold effQty <;>
      simp [update_position, hq, hside] <;>
      ring

/-- C5: after any sequence of `update_position` calls with nonnegative
filled quantities on a fresh engine, the cash balance is the initial cash
minus the filled buy notional plus the filled sell notional. -/
theorem cash_balance_invariant (mos mp : ℤ) (cash : ℚ) (mtb mts : Option ℤ)
    (calls : List (Order × Option ℤ)) (hpos : ∀ c ∈ calls, 0 ≤ effQty c) :
    (runUpdates (RiskState.init mos mp cash mtb mts) calls).cash_balance
      = cash - buyNotional calls + sellNotional calls := by
  suffices h : ∀ (st : RiskState) (cs : List (Order × Option ℤ)),
      (∀ c ∈ cs, 0 ≤ effQty c) →
      (runUpdates st cs).cash_balance = st.cash_balance - buyNotional cs + sellNotional cs by
    exact h _ calls hpos
  intro st cs
  induction cs generalizing st with
  | nil => intro _; simp [runUpdates, buyNotional, sellNotional]
  | cons c cs ih =>
    intro hall
    have hc := hall c (List.mem_cons_self c cs)
    have hrest : ∀ x ∈ cs, 0 ≤ effQty x := fun x hx => hall x (List.mem_cons_of_mem c hx)
    have hstep : runUpdates st (c :: cs) = runUpdates (update_position st c.1 c.2) cs := rfl
    rw [hstep, ih _ hrest, update_position_cash st c hc]
    simp [buyNotional, sellNotional]
    ring

/-- Witness for C5 at a concrete two-call sequence. -/
theorem cash_balance_invariant_witness :
    (runUpdates (RiskState.init 10 10 100 none none)
      [(⟨Side.BUY, "X", 5, 10⟩, some 5), (⟨Side.SELL, "X", 2, 7⟩, none)]).cash_balance
      = 100 - buyNotional [(⟨Side.BUY, "X", 5, 10⟩, some 5), (⟨Side.SELL, "X", 2, 7⟩, none)]
        + sellNotional [(⟨Side.BUY, "X", 5, 10⟩, some 5), (⟨Side.SELL, "X", 2, 7⟩, none)] :=
  cash_balance_invariant 10 10 100 none none _ (by decide)

/-- The backtester fill-accounting invariant: the position is never
negative and the cash is the initial capital plus realized pnl minus the
open position's cost basis. -/
theorem handleFill_inv (cap : ℚ) (s : BTState) (side : Side) (qty : ℤ) (price : ℚ)
    (hpos : 0 ≤ s.position)
    (hcash : s.cash = cap + s.realized_pnl - s.position * s.avg_entry_price) :
    0 ≤ (handleFill s side qty price).position ∧
      (handleFill s side qty price).cash
        = cap + (handleFill s side qty price).realized_pnl
          - ((handleFill s side qty price).position : ℚ)
            * (handleFill s side qty price).avg_entry_price := by
  by_cases h1 : qty ≤ 0
  · simpa [handleFill, h1] using ⟨hpos, hcash⟩
  · rcases side with _ | _
    · -- BUY: the position grows and the averaged cost basis absorbs the spend
      have htot : (0:ℤ) < s.position + qty := by omega
      have hstep : handleFill s Side.BUY qty price =
          { cash := s.cash - (qty : ℚ) * price,
            position := s.position + qty,
            avg_entry_price :=
              (s.avg_entry_price * (s.position : ℚ) + price * (qty : ℚ))
                / ((s.position + qty : ℤ) : ℚ),
            realized_pnl := s.realized_pnl } := by
        simp [handleFill, h1, htot]
      rw [hstep]
      refine ⟨show (0:ℤ) ≤ s.position + qty by omega, ?_⟩
      have hne : ((s.position : ℚ) + (qty : ℚ)) ≠ 0 := by
        have h2 : ((s.position + qty : ℤ) : ℚ) ≠ 0 := by
          exact_mod_cast (by omega : (s.position + qty : ℤ) ≠ 0)
        push_cast at h2
        exact h2
      show s.cash - (qty : ℚ) * price
          = cap + s.realized_pnl
            - ((s.position + qty : ℤ) : ℚ)
              * ((s.avg_entry_price * (s.position : ℚ) + price * (qty : ℚ))
                / ((s.position + qty : ℤ) : ℚ))
      rw [hcash]
      push_cast
      field_simp
      ring
    · -- SELL
      by_cases hc : min qty s.position = 0
      · simpa [handleFill, h1, hc] using ⟨hpos, hcash⟩
      · have hcpos : 0 < min qty s.position := by omega
        have hcle : min qty s.position ≤ s.position := min_le_right _ _
        have hstep : handleFill s Side.SELL qty price =
            { cash := s.cash + ((min qty s.position : ℤ) : ℚ) * price,
              position := s.position - min qty s.position,
              avg_entry_price :=
                if s.position - min qty s.position = 0 then 0 else s.avg_entry_price,
              realized_pnl := s.realized_pnl
                + (price - s.avg_entry_price) * ((min qty s.position : ℤ) : ℚ) } := by
          simp [handleFill, h1, hc]
        rw [hstep]
        refine ⟨show (0:ℤ) ≤ s.position - min qty s.position by omega, ?_⟩
        by_cases hp0 : s.position - min qty s.position = 0
        · have hcp : min qty s.position = s.position := by omega
          rw [hcash]
          simp only [hp0, if_pos rfl, hcp]
          push_cast
          ring
        · rw [hcash]
          simp only [hp0, if_neg hp0]
          push_cast
          ring

/-- C9: after any sequence of fill events and a mark-to-market at the last
price, the equity `cash + position * last_price` equals
`initial_capital + realized_pnl + position * last_price - position *
avg_entry_price`. -/
theorem backtester_equity_identity (events : List (Side × ℤ × ℚ)) (cap last : ℚ) :
    (runFills cap events).cash + ((runFills cap events).position : ℚ) * last
      = cap + (runFills cap events).realized_pnl
        + ((runFills cap events).position : ℚ) * last
        - ((runFills cap events).position : ℚ) * (runFills cap events).avg_entry_price := by
  suffices h : ∀ (s : BTState), 0 ≤ s.position →
      s.cash = cap + s.realized_pnl - s.position * s.avg_entry_price →
      (events.foldl (fun s e => handleFill s e.1 e.2.1 e.2.2) s).cash
        = cap + (events.foldl (fun s e => handleFill s e.1 e.2.1 e.2.2) s).realized_pnl
          - (events.foldl (fun s e => handleFill s e.1 e.2.1 e.2.2) s).position
            * (events.foldl (fun s e => handleFill s e.1 e.2.1 e.2.2) s).avg_entry_price by
    have := h ⟨cap, 0, 0, 0⟩ (by simp) (by simp)
    unfold runFills
    rw [this]
    ring
  induction events with
  | nil => intro s _ hcash; simpa using hcash
  | cons e es ih =>
    intro s hpos hcash
    have hstep := handleFill_inv cap s e.1 e.2.1 e.2.2 hpos hcash
    exact ih _ hstep.1 hstep.2

/-- C6 counterexample: on the concrete series `maEx` the code emits a SELL
at bar 3 although the previous short average does not strictly exceed the
previous long average, so the claim's SELL characterization is false. -/
theorem ma_crossover_claim_false :
    maEmitAt maEx 3 = some SignalType.SELL ∧ maSellClaim maEx 3 = false := by decide

/-- C6 (amended): the crossover loop emits a BUY at a bar exactly when the
previous short average is less than or equal to the previous long
average, the current short average strictly exceeds the current long
average and the position is 0; and a SELL exactly when the previous short
average is greater than or equal to the previous long average, the
current short average is strictly below the current long average and the
position is 1. -/
theorem ma_crossover_signal_iff (rows : List MARow) (i : ℕ) (p c : MARow)
    (ps pl cs cl : ℚ)
    (hp : rows[i]? = some p) (hc : rows[i+1]? = some c)
    (hps : p.maShort = some ps) (hpl : p.maLong = some pl)
    (hcs : c.maShort = some cs) (hcl : c.maLong = some cl) :
    (maEmitAt rows (i+1) = some SignalType.BUY ↔
      ps ≤ pl ∧ cl < cs ∧ maPosAfter rows i = 0) ∧
    (maEmitAt rows (i+1) = some SignalType.SELL ↔
      pl ≤ ps ∧ cs < cl ∧ maPosAfter rows i = 1) := by
  simp only [maEmitAt, hp, hc, maStep, hps, hpl, hcs, hcl]
  split_ifs with h1 h2 <;>
    constructor <;> constructor <;> intro h <;> simp_all <;> omega

/-- Witness for C6's amended characterization at a concrete bar. -/
theorem ma_crossover_signal_iff_witness :
    maEmitAt maEx 1 = some SignalType.BUY :=
  (ma_crossover_signal_iff maEx 0 ⟨some 1, some 2, 10⟩ ⟨some 3, some 2, 11⟩
    1 2 3 2 (by decide) (by decide) rfl rfl rfl rfl).1.mpr
    ⟨by norm_num, by norm_num, by decide⟩

/-- C7 counterexample: on the concrete series `momEx` bar 1 satisfies the
claim's BUY conditions (previous momentum not above the threshold,
current momentum above it, position 0) yet the code emits nothing,
because the bar's `Returns` value is not positive. -/
theorem momentum_claim_false :
    momBuyClaim (1/1000) momEx 1 = true ∧ momEmitAt (1/1000) momEx 1 = none :=
  of_decide_eq_true (by with_unfolding_all rfl)

/-- C7 (amended): the momentum loop emits a BUY at a bar exactly when the
previous momentum is not above the threshold, the current momentum is
strictly above it, the bar's return is strictly positive and the position
is 0; and a SELL exactly when the current momentum is strictly below the
negated threshold and the position is 1 (any breach, no crossing
required). -/
theorem momentum_signal_iff (θ : ℚ) (rows : List MomRow) (i : ℕ) (p c : MomRow)
    (pm cm ret : ℚ)
    (hp : rows[i]? = some p) (hc : rows[i+1]? = some c)
    (hpm : p.momentum = some pm) (hcm : c.momentum = some cm)
    (hret : c.returns = some ret) :
    (momEmitAt θ rows (i+1) = some SignalType.BUY ↔
      pm ≤ θ ∧ θ < cm ∧ 0 < ret ∧ momPosAfter θ rows i = 0) ∧
    (momEmitAt θ rows (i+1) = some SignalType.SELL ↔
      cm < -θ ∧ momPosAfter θ rows i = 1) := by
  simp only [momEmitAt, hp, hc, momStep, hpm, hcm, hret]
  split_ifs with h1 h2 <;>
    constructor <;> constructor <;> intro h <;> simp_all <;> omega

/-- Witness for C7's amended characterization at a concrete bar. -/
theorem momentum_signal_iff_witness :
    momEmitAt (1/1000) [⟨some 0, some 0, 10⟩, ⟨some 1, some 1, 10⟩] 1
      = some SignalType.BUY :=
  (momentum_signal_iff (1/1000) [⟨some 0, some 0, 10⟩, ⟨some 1, some 1, 10⟩] 0
    ⟨some 0, some 0, 10⟩ ⟨some 1, some 1, 10⟩ 0 1 1
    (by decide) (by decide) rfl rfl rfl).1.mpr
    ⟨by norm_num, by norm_num, by norm_num, by decide⟩

/-- C8 counterexample: on the window `[1, 3]` the z-score the code
computes (sample standard deviation, `ddof=1`) differs from the claim's
population-standard-deviation z-score. -/
theorem zscore_popstd_claim_false : zScoreCode [1, 3] ≠ zScoreClaim [1, 3] := by
  have hm : rollingMean [1, 3] = 2 := by with_unfolding_all rfl
  have h1 : sampleVar [1, 3] = 2 := by with_unfolding_all rfl
  have h2 : popVar [1, 3] = 1 := by with_unfolding_all rfl
  have hlast : ([1, 3] : List ℚ).getLast?.getD 0 = 3 := rfl
  simp only [zScoreCode, zScoreClaim, h1, h2, hm, hlast]
  norm_num [Real.sqrt_one, Real.sqrt_eq_one]

/-- C8 (amended): for every full window, the standard deviation the code
uses is the sample one — its square is `Σ(x-mean)²/(N-1)`, equal to
`N/(N-1)` times the claim's population variance — the z-score is the
deviation of the last price from the rolling mean divided by that sample
standard deviation, and when the deviation is zero the z-score cell is
NaN and the bar emits no signal. -/
theorem zscore_sample_std (w : List ℚ) (h2 : 2 ≤ w.length) :
    sampleVar w = ((w.length : ℚ) / ((w.length : ℚ) - 1)) * popVar w ∧
    (∀ z, zScoreCode w = some z →
      z * Real.sqrt ((sampleVar w : ℚ) : ℝ)
        = ((w.getLast?.getD 0 : ℚ) : ℝ) - ((rollingMean w : ℚ) : ℝ)) ∧
    (sampleVar w = 0 → zScoreCode w = none) ∧
    (∀ (θ : ℝ) (pos : ℕ) (pz : Option ℝ), (zsStep θ pos pz none).1 = none) := by
  have hN : (2 : ℚ) ≤ (w.length : ℚ) := by exact_mod_cast h2
  have hN0 : (w.length : ℚ) ≠ 0 := by linarith
  have hN1 : (w.length : ℚ) - 1 ≠ 0 := by
    intro h
    have : (w.length : ℚ) = 1 := by linarith
    linarith
  refine ⟨?_, ?_, ?_, ?_⟩
  · unfold sampleVar popVar
    field_simp
    ring
  · intro z hz
    unfold zScoreCode at hz
    split_ifs at hz with hv
    have hvpos : 0 < sampleVar w := by
      have hnn : 0 ≤ sampleVar w := by
        unfold sampleVar
        apply div_nonneg
        · apply List.sum_nonneg
          intro x hx
          simp only [List.mem_map] at hx
          obtain ⟨y, _, rfl⟩ := hx
          positivity
        · linarith
      exact lt_of_le_of_ne hnn (Ne.symm hv)
    have hsq : Real.sqrt ((sampleVar w : ℚ) : ℝ) ≠ 0 := by
      apply ne_of_gt
      apply Real.sqrt_pos.mpr
      exact_mod_cast hvpos
    rw [← Option.some_inj.mp hz]
    field_simp
  · intro hv
    unfold zScoreCode
    simp [hv]
  · intro θ pos pz
    cases pz <;> simp [zsStep]

/-- Witness for C8's amended theorem at the concrete window `[1, 3]`. -/
theorem zscore_sample_std_witness :
    sampleVar [1, 3]
      = ((([1, 3] : List ℚ).length : ℚ) / ((([1, 3] : List ℚ).length : ℚ) - 1))
        * popVar [1, 3] :=
  (zscore_sample_std [1, 3] (by decide)).1

/-! ### Association-list and heap lemmas -/

theorem alGet_set_self {α β : Type} [DecidableEq α] (m : List (α × β)) (k : α) (v : β) :
    alGet (alSet m k v) k = some v := by
  induction m with
  | nil => simp [alGet, alSet]
  | cons p rest ih =>
    by_cases h : p.1 = k
    · simp [alSet, h, alGet]
    · simp [alSet, h, alGet, ih]

theorem alGet_set_ne {α β : Type} [DecidableEq α] (m : List (α × β)) (k k' : α) (v : β)
    (h : k ≠ k') : alGet (alSet m k v) k' = alGet m k' := by
  induction m with
  | nil => simp [alGet, alSet, h]
  | cons p rest ih =>
    by_cases hp : p.1 = k
    · simp [alSet, hp, alGet, h]
    · simp only [alSet, if_neg hp, alGet]
      by_cases hp' : p.1 = k' <;> simp [hp', ih]

theorem entryLE_refl (a : Entry) : entryLE a a := le_refl a.key

theorem entryLE_priceKey {a b : Entry} (h : entryLE a b) : a.priceKey ≤ b.priceKey :=
  Prod.Lex.monotone_fst a.key b.key h

theorem mem_hpush {h : List Entry} {e x : Entry} : x ∈ hpush h e ↔ x = e ∨ x ∈ h :=
  List.mem_orderedInsert entryLE

theorem sorted_hpush {h : List Entry} (hs : List.Sorted entryLE h) (e : Entry) :
    List.Sorted entryLE (hpush h e) :=
  hs.orderedInsert e h

/-! ### bestAux lemmas -/

theorem validEntry_some {o : List (ℕ × BookRec)} {s : Side} {e : Entry} {r : BookRec}
    (h : validEntry o s e = some r) :
    alGet o e.oid = some r ∧ r.active = true ∧ 0 < r.qty ∧ r.version = e.ver ∧ r.side = s := by
  unfold validEntry at h
  rcases hg : alGet o e.oid with _ | r'
  · simp [hg] at h
  · simp only [hg] at h
    split_ifs at h with hc
    · cases h
      exact ⟨rfl, hc.1, hc.2.1, hc.2.2.1, hc.2.2.2⟩

theorem validEntry_entryOf {o : List (ℕ × BookRec)} {s : Side} {r : BookRec}
    (halg : alGet o r.order_id = some r) (ha : r.active = true) (hq : 0 < r.qty)
    (hs : r.side = s) : validEntry o s (entryOf r) = some r := by
  unfold validEntry entryOf
  simp [halg, ha, hq, hs]

theorem bestAux_none_spec (o : List (ℕ × BookRec)) (s : Side) :
    ∀ h : List Entry, (bestAux o s h).1 = none →
      (bestAux o s h).2 = [] ∧ ∀ e ∈ h, validEntry o s e = none := by
  intro h
  induction h with
  | nil => intro _; exact ⟨rfl, by simp⟩
  | cons e rest ih =>
    intro hres
    rcases hv : validEntry o s e with _ | r
    · have hstep : bestAux o s (e :: rest) = bestAux o s rest := by
        show (match validEntry o s e with
          | some r => (some r, e :: rest)
          | none => bestAux o s rest) = bestAux o s rest
        rw [hv]
      rw [hstep] at hres ⊢
      obtain ⟨h1, h2⟩ := ih hres
      exact ⟨h1, fun x hx => by
        rcases List.mem_cons.mp hx with rfl | hx'
        · exact hv
        · exact h2 x hx'⟩
    · have : (bestAux o s (e :: rest)).1 = some r := by
        show (match validEntry o s e with
          | some r => (some r, e :: rest)
          | none => bestAux o s rest).1 = some r
        rw [hv]
      rw [hres] at this
      exact absurd this (by simp)

theorem bestAux_some_spec (o : List (ℕ × BookRec)) (s : Side) :
    ∀ (h h2 : List Entry) (r : BookRec), bestAux o s h = (some r, h2) →
      ∃ pre, h = pre ++ h2 ∧ (∀ d ∈ pre, validEntry o s d = none) ∧
        ∃ e t, h2 = e :: t ∧ validEntry o s e = some r := by
  intro h
  induction h with
  | nil => intro h2 r hres; exact absurd hres (by simp [bestAux])
  | cons e rest ih =>
    intro h2 r hres
    rcases hv : validEntry o s e with _ | r'
    · have hstep : bestAux o s (e :: rest) = bestAux o s rest := by
        show (match validEntry o s e with
          | some r => (some r, e :: rest)
          | none => bestAux o s rest) = bestAux o s rest
        rw [hv]
      rw [hstep] at hres
      obtain ⟨pre, hsplit, hpre, e', t, h2eq, hval⟩ := ih h2 r hres
      exact ⟨e :: pre, by simp [hsplit], fun d hd => by
        rcases List.mem_cons.mp hd with rfl | hd'
        · exact hv
        · exact hpre d hd', e', t, h2eq, hval⟩
    · have hstep : bestAux o s (e :: rest) = (some r', e :: rest) := by
        show (match validEntry o s e with
          | some r => (some r, e :: rest)
          | none => bestAux o s rest) = (some r', e :: rest)
        rw [hv]
      rw [hstep] at hres
      cases hres
      exact ⟨[], by simp, by simp, e, rest, rfl, hv⟩

/-! ### OrderBook.best lemmas -/

theorem best_fst (ob : OrderBook) (side : Side) :
    (ob.best side).1 = (bestAux ob.orders side (heapOf ob side)).1 := rfl

theorem best_snd_orders (ob : OrderBook) (side : Side) :
    (ob.best side).2.orders = ob.orders := by
  cases side <;> rfl

theorem best_snd_seq (ob : OrderBook) (side : Side) :
    (ob.best side).2.seq = ob.seq := by
  cases side <;> rfl

theorem best_snd_heap (ob : OrderBook) (side : Side) :
    heapOf (ob.best side).2 side = (bestAux ob.orders side (heapOf ob side)).2 := by
  cases side <;> rfl

theorem best_snd_heap_other (ob : OrderBook) (side side' : Side) (h : side' ≠ side) :
    heapOf (ob.best side).2 side' = heapOf ob side' := by
  cases side <;> cases side' <;> first | exact absurd rfl h | rfl

theorem liveRec_of_orders_eq {ob ob' : OrderBook} (h : ob'.orders = ob.orders)
    (r : BookRec) : liveRec ob' r ↔ liveRec ob r := by
  unfold liveRec
  rw [h]

theorem side_counter_ne (s : Side) : s.counter ≠ s := by cases s <;> decide

theorem side_counter_counter (s : Side) : s.counter.counter = s := by cases s <;> rfl

/-- Soundness of `_best`: a returned record is live on the queried side. -/
theorem best_sound {ob : OrderBook} {side : Side} {r : BookRec} (hkeys : KeysOk ob)
    (h : (ob.best side).1 = some r) : liveRec ob r ∧ r.side = side := by
  rw [best_fst] at h
  rcases hb : bestAux ob.orders side (heapOf ob side) with ⟨r0, h2⟩
  rw [hb] at h
  cases h
  obtain ⟨pre, hsplit, hpre, e, t, h2eq, hval⟩ :=
    bestAux_some_spec ob.orders side (heapOf ob side) h2 r hb
  obtain ⟨hg, ha, hq, hv, hs⟩ := validEntry_some hval
  have hid : r.order_id = e.oid := hkeys e.oid r hg
  exact ⟨⟨by rw [hid]; exact hg, ha, hq⟩, hs⟩

theorem bestAux_cons_none {o : List (ℕ × BookRec)} {s : Side} {e : Entry}
    {rest : List Entry} (hv : validEntry o s e = none) :
    bestAux o s (e :: rest) = bestAux o s rest := by
  show (match validEntry o s e with
    | some r => (some r, e :: rest)
    | none => bestAux o s rest) = bestAux o s rest
  rw [hv]

theorem bestAux_cons_some {o : List (ℕ × BookRec)} {s : Side} {e : Entry}
    {rest : List Entry} {r : BookRec} (hv : validEntry o s e = some r) :
    bestAux o s (e :: rest) = (some r, e :: rest) := by
  show (match validEntry o s e with
    | some r => (some r, e :: rest)
    | none => bestAux o s rest) = (some r, e :: rest)
  rw [hv]

theorem bestAux_suffix (o : List (ℕ × BookRec)) (s : Side) :
    ∀ h : List Entry, (bestAux o s h).2 <:+ h := by
  intro h
  induction h with
  | nil => simp [bestAux]
  | cons e rest ih =>
    rcases hv : validEntry o s e with _ | r
    · rw [bestAux_cons_none hv]
      exact ih.trans (List.suffix_cons e rest)
    · rw [bestAux_cons_some hv]

theorem sorted_heapOf {ob : OrderBook} (hb : List.Sorted entryLE ob.bids)
    (ha : List.Sorted entryLE ob.asks) (side : Side) :
    List.Sorted entryLE (heapOf ob side) := by
  cases side
  · exact hb
  · exact ha

theorem best_heap_mem {ob : OrderBook} (side side' : Side) {e : Entry}
    (he : e ∈ heapOf (ob.best side).2 side') : e ∈ heapOf ob side' := by
  by_cases hss : side' = side
  · subst hss
    rw [best_snd_heap] at he
    exact (bestAux_suffix _ _ _).sublist.subset he
  · rw [best_snd_heap_other _ _ _ hss] at he
    exact he

/-- The lazy pruning `_best` performs preserves the loop invariant. -/
theorem best_loopInv {ob : OrderBook} {oid : ℕ} (h : LoopInv ob oid) (side : Side) :
    LoopInv (ob.best side).2 oid := by
  obtain ⟨hkeys, hsb, hsa, hvb, hf, hc, hux⟩ := h
  have hord := best_snd_orders ob side
  refine ⟨?_, ?_, ?_, ?_, ?_, ?_, ?_⟩
  · intro k r hg
    rw [hord] at hg
    exact hkeys k r hg
  · show List.Sorted entryLE (heapOf (ob.best side).2 Side.BUY)
    cases side
    · rw [best_snd_heap]
      exact List.Pairwise.sublist (bestAux_suffix _ _ _).sublist hsb
    · rw [best_snd_heap_other _ _ _ (by decide)]
      exact hsb
  · show List.Sorted entryLE (heapOf (ob.best side).2 Side.SELL)
    cases side
    · rw [best_snd_heap_other _ _ _ (by decide)]
      exact hsa
    · rw [best_snd_heap]
      exact List.Pairwise.sublist (bestAux_suffix _ _ _).sublist hsa
  · intro side' e he
    rw [hord]
    exact hvb side' e (best_heap_mem side side' he)
  · intro side' e he r hg hv
    rw [hord] at hg
    exact hf side' e (best_heap_mem side side' he) r hg hv
  · intro r hlive
    have hlive' : liveRec ob r := (liveRec_of_orders_eq hord r).mp hlive
    have hmem := hc r hlive'
    by_cases hss : r.side = side
    · rw [hss] at hmem ⊢
      rw [best_snd_heap]
      have hval : validEntry ob.orders side (entryOf r) = some r :=
        validEntry_entryOf hlive'.1 hlive'.2.1 hlive'.2.2 hss
      rcases hres : bestAux ob.orders side (heapOf ob side) with ⟨r0, h2⟩
      rcases r0 with _ | r1
      · obtain ⟨-, hall⟩ := bestAux_none_spec ob.orders side (heapOf ob side)
          (by rw [hres])
        exact absurd (hall _ hmem) (by simp [hval])
      · obtain ⟨pre, hsplit, hpre, -⟩ :=
          bestAux_some_spec ob.orders side (heapOf ob side) h2 r1 hres
        rw [hsplit] at hmem
        rcases List.mem_append.mp hmem with hin | hin
        · exact absurd (hpre _ hin) (by simp [hval])
        · exact hin
    · rw [best_snd_heap_other _ _ _ hss]
      exact hmem
  · intro b s hb hs hbside hsside hbne hsne
    exact hux b s ((liveRec_of_orders_eq hord b).mp hb)
      ((liveRec_of_orders_eq hord s).mp hs) hbside hsside hbne hsne

/-- Minimality of `_best`: the returned record's price key is no larger
than that of any live record on the queried side. -/
theorem best_minKey {ob : OrderBook} {side : Side} {r : BookRec}
    (hsb : List.Sorted entryLE ob.bids) (hsa : List.Sorted entryLE ob.asks)
    (hf : EntryFaithful ob) (hc : Complete ob)
    (hres : (ob.best side).1 = some r) :
    ∀ x, liveRec ob x → x.side = side → priceKeyOf r ≤ priceKeyOf x := by
  intro x hx hxs
  rw [best_fst] at hres
  rcases hb : bestAux ob.orders side (heapOf ob side) with ⟨r0, h2⟩
  rw [hb] at hres
  cases hres
  obtain ⟨pre, hsplit, hpre, e, t, h2eq, hval⟩ :=
    bestAux_some_spec ob.orders side (heapOf ob side) h2 r hb
  obtain ⟨hg, ha, hq, hv, hs⟩ := validEntry_some hval
  have hein : e ∈ heapOf ob side := by
    rw [hsplit, h2eq]
    simp
  have hefaith := hf side e hein r hg hv.symm
  have hxval : validEntry ob.orders side (entryOf x) = some x :=
    validEntry_entryOf hx.1 hx.2.1 hx.2.2 hxs
  have hxmem : entryOf x ∈ heapOf ob side := by
    have := hc x hx
    rwa [hxs] at this
  rw [hsplit] at hxmem
  have hxtail : entryOf x ∈ e :: t := by
    rcases List.mem_append.mp hxmem with hin | hin
    · exact absurd (hpre _ hin) (by simp [hxval])
    · rwa [h2eq] at hin
  have hsorted : List.Sorted entryLE (heapOf ob side) := sorted_heapOf hsb hsa side
  have hle : entryLE e (entryOf x) := by
    rcases List.mem_cons.mp hxtail with heq | hin
    · rw [heq]
      exact entryLE_refl _
    · have : List.Sorted entryLE (e :: t) := by
        rw [hsplit, h2eq] at hsorted
        exact List.Pairwise.sublist (List.suffix_append pre (e :: t)).sublist hsorted
      exact List.rel_of_sorted_cons this _ hin
  have := entryLE_priceKey hle
  rw [hefaith.1] at this
  exact this

/-! ### matchLoop step equations -/

theorem matchLoop_zero (ob : OrderBook) (inc : BookRec) (acc : List Trade) :
    matchLoop 0 ob inc acc = (ob, inc, acc) := rfl

theorem matchLoop_done (fuel : ℕ) (ob : OrderBook) (inc : BookRec) (acc : List Trade)
    (hq : ¬ 0 < inc.qty) : matchLoop (fuel + 1) ob inc acc = (ob, inc, acc) := by
  simp [matchLoop, hq]

theorem matchLoop_none (fuel : ℕ) (ob : OrderBook) (inc : BookRec) (acc : List Trade)
    (hq : 0 < inc.qty) {ob1 : OrderBook}
    (hb : ob.best inc.side.counter = (none, ob1)) :
    matchLoop (fuel + 1) ob inc acc = (ob1, inc, acc) := by
  simp [matchLoop, hq, hb]

theorem matchLoop_nocross (fuel : ℕ) (ob : OrderBook) (inc : BookRec) (acc : List Trade)
    (hq : 0 < inc.qty) {r : BookRec} {ob1 : OrderBook}
    (hb : ob.best inc.side.counter = (some r, ob1))
    (hcr : crosses inc r.price = false) :
    matchLoop (fuel + 1) ob inc acc = (ob1, inc, acc) := by
  simp [matchLoop, hq, hb, hcr]

theorem matchLoop_step (fuel : ℕ) (ob : OrderBook) (inc : BookRec) (acc : List Trade)
    (hq : 0 < inc.qty) {r : BookRec} {ob1 : OrderBook}
    (hb : ob.best inc.side.counter = (some r, ob1))
    (hcr : crosses inc r.price = true) :
    matchLoop (fuel + 1) ob inc acc
      = matchLoop fuel
          ({ ob1 with
             orders :=
               alSet ob1.orders r.order_id
                 (if r.qty - min inc.qty r.qty ≤ 0 then
                   { r with qty := r.qty - min inc.qty r.qty, active := false }
                  else { r with qty := r.qty - min inc.qty r.qty }) })
          ({ inc with qty := inc.qty - min inc.qty r.qty })
          (acc ++ [{ buy_id := if inc.side = Side.BUY then inc.order_id else r.order_id,
                     sell_id := if inc.side = Side.SELL then inc.order_id else r.order_id,
                     price := r.price,
                     qty := min inc.qty r.qty }]) := by
  simp [matchLoop, hq, hb, hcr]

/-- The matching loop, run with enough fuel, preserves the loop invariant,
never touches the incoming order's stored record or its own side's heap,
only lowers the incoming quantity (and nothing else), and stops only when
the incoming order is exhausted or no live counter-side order crosses it. -/
theorem matchLoop_spec :
    ∀ (fuel : ℕ) (ob : OrderBook) (inc : BookRec) (acc : List Trade)
      (ob' : OrderBook) (inc' : BookRec) (tr : List Trade),
      inc.qty.toNat < fuel →
      LoopInv ob inc.order_id →
      (∃ rd, alGet ob.orders inc.order_id = some rd ∧ rd.side = inc.side) →
      matchLoop fuel ob inc acc = (ob', inc', tr) →
      LoopInv ob' inc.order_id ∧
      inc'.order_id = inc.order_id ∧ inc'.side = inc.side ∧ inc'.price = inc.price ∧
      inc'.seq = inc.seq ∧ inc'.version = inc.version ∧ inc'.active = inc.active ∧
      alGet ob'.orders inc.order_id = alGet ob.orders inc.order_id ∧
      heapOf ob' inc.side = heapOf ob inc.side ∧
      (0 < inc'.qty →
        ∀ x, liveRec ob' x → x.side = inc.side.counter → crosses inc' x.price = false) := by
  intro fuel
  induction fuel with
  | zero => intro ob inc acc ob' inc' tr hfuel; omega
  | succ fuel ih =>
    intro ob inc acc ob' inc' tr hfuel hinv hrd hres
    by_cases hq : 0 < inc.qty
    · rcases hb : ob.best inc.side.counter with ⟨r0, ob1⟩
      have hbestInv : LoopInv ob1 inc.order_id := by
        have h0 := best_loopInv hinv inc.side.counter
        rwa [hb] at h0
      have hord1 : ob1.orders = ob.orders := by
        have h0 := best_snd_orders ob inc.side.counter
        rwa [hb] at h0
      have hheap1 : heapOf ob1 inc.side = heapOf ob inc.side := by
        have h0 := best_snd_heap_other ob inc.side.counter inc.side
          (side_counter_ne inc.side).symm
        rwa [hb] at h0
      rcases r0 with _ | r
      · -- no live counter-side order at all
        rw [matchLoop_none fuel ob inc acc hq hb] at hres
        simp only [Prod.mk.injEq] at hres
        obtain ⟨rfl, rfl, rfl⟩ := hres
        refine ⟨hbestInv, rfl, rfl, rfl, rfl, rfl, rfl, by rw [hord1], hheap1, ?_⟩
        intro _ x hx hxs
        exfalso
        have hfst : (ob.best inc.side.counter).1 = none := by rw [hb]
        rw [best_fst] at hfst
        obtain ⟨-, hall⟩ := bestAux_none_spec _ _ _ hfst
        have hxob : liveRec ob x := (liveRec_of_orders_eq hord1 x).mp hx
        have hxval : validEntry ob.orders inc.side.counter (entryOf x) = some x :=
          validEntry_entryOf hxob.1 hxob.2.1 hxob.2.2 hxs
        have hxmem : entryOf x ∈ heapOf ob inc.side.counter := by
          have h0 := hinv.complete x hxob
          rwa [hxs] at h0
        exact absurd (hall _ hxmem) (by simp [hxval])
      · -- a live best exists
        have hfst : (ob.best inc.side.counter).1 = some r := by rw [hb]
        have hrlive := best_sound hinv.keys hfst
        have hrne : r.order_id ≠ inc.order_id := by
          obtain ⟨rd, hgd, hsd⟩ := hrd
          intro he
          have h0 : alGet ob.orders inc.order_id = some r := by
            rw [← he]
            exact hrlive.1.1
          rw [hgd] at h0
          cases h0
          have h1 := hrlive.2
          rw [hsd] at h1
          exact side_counter_ne inc.side h1.symm
        -- the best record's entry survives in the pruned heap
        have hentry1 : entryOf r ∈ heapOf ob1 inc.side.counter := by
          rw [best_fst] at hfst
          rcases hba : bestAux ob.orders inc.side.counter (heapOf ob inc.side.counter)
            with ⟨rr, h2⟩
          rw [hba] at hfst
          cases hfst
          obtain ⟨pre, hsplit, hpre, e, t, h2eq, hval⟩ :=
            bestAux_some_spec _ _ _ h2 r hba
          obtain ⟨hg, -, -, hv, -⟩ := validEntry_some hval
          have hein : e ∈ heapOf ob inc.side.counter := by
            rw [hsplit, h2eq]
            simp
          have hef := hinv.faithful inc.side.counter e hein r hg hv.symm
          have hh : heapOf ob1 inc.side.counter = h2 := by
            have h0 := best_snd_heap ob inc.side.counter
            rw [hb] at h0
            rw [h0, hba]
          rw [hh, h2eq, ← hef.1]
          simp
        by_cases hcr : crosses inc r.price
        · -- trade: one unit of work, then the induction hypothesis
          rw [matchLoop_step fuel ob inc acc hq hb hcr] at hres
          set tq := min inc.qty r.qty with htq
          set r2 := (if r.qty - tq ≤ 0 then
              { r with qty := r.qty - tq, active := false }
            else { r with qty := r.qty - tq }) with hr2
          set ob2 := { ob1 with orders := alSet ob1.orders r.order_id r2 } with hob2
          set inc2 := { inc with qty := inc.qty - tq } with hinc2
          have hrq : 0 < r.qty := hrlive.1.2.2
          have htqpos : 0 < tq := lt_min hq hrq
          have hr2id : r2.order_id = r.order_id := by
            rw [hr2]; split_ifs <;> rfl
          have hr2side : r2.side = r.side := by
            rw [hr2]; split_ifs <;> rfl
          have hr2price : r2.price = r.price := by
            rw [hr2]; split_ifs <;> rfl
          have hr2ver : r2.version = r.version := by
            rw [hr2]; split_ifs <;> rfl
          have hr2entry : entryOf r2 = entryOf r := by
            rw [hr2]; split_ifs <;> rfl
          have hrget1 : alGet ob1.orders r.order_id = some r := by
            rw [hord1]
            exact hrlive.1.1
          have hinv2 : LoopInv ob2 inc.order_id := by
            obtain ⟨hkeys1, hsb1, hsa1, hvb1, hf1, hc1, hux1⟩ := hbestInv
            refine ⟨?_, hsb1, hsa1, ?_, ?_, ?_, ?_⟩
            · intro k rec hg
              by_cases hk : r.order_id = k
              · rw [hob2] at hg
                simp only at hg
                rw [← hk, alGet_set_self] at hg
                cases hg
                rw [hr2id, hk]
              · rw [hob2] at hg
                simp only at hg
                rw [alGet_set_ne _ _ _ _ hk] at hg
                exact hkeys1 k rec hg
            · intro side e he
              obtain ⟨rec, hg, hle⟩ := hvb1 side e he
              by_cases hk : e.oid = r.order_id
              · refine ⟨r2, ?_, ?_⟩
                · show alGet (alSet ob1.orders r.order_id r2) e.oid = some r2
                  rw [hk, alGet_set_self]
                · rw [hk] at hg
                  rw [hrget1] at hg
                  cases hg
                  rw [hr2ver]
                  exact hle
              · refine ⟨rec, ?_, hle⟩
                show alGet (alSet ob1.orders r.order_id r2) e.oid = some rec
                rw [alGet_set_ne _ _ _ _ (fun h0 => hk h0.symm)]
                exact hg
            · intro side e he rec hg hv
              by_cases hk : e.oid = r.order_id
              · have hg2 : rec = r2 := by
                  rw [hob2] at hg
                  simp only at hg
                  rw [hk, alGet_set_self] at hg
                  cases hg
                  rfl
                subst hg2
                have h0 := hf1 side e he r (by rw [hk]; exact hrget1)
                  (by rw [hv, hr2ver])
                exact ⟨h0.1.trans hr2entry.symm, hr2side.trans h0.2⟩
              · have hg2 : alGet ob1.orders e.oid = some rec := by
                  rw [hob2] at hg
                  simp only at hg
                  rwa [alGet_set_ne _ _ _ _ (fun h0 => hk h0.symm)] at hg
                exact hf1 side e he rec hg2 hv
            · intro x hx
              by_cases hk : x.order_id = r.order_id
              · have hg2 : x = r2 := by
                  have h0 := hx.1
                  rw [hob2] at h0
                  simp only at h0
                  rw [hk, alGet_set_self] at h0
                  cases h0
                  rfl
                have hside2 : x.side = inc.side.counter := by
                  rw [hg2, hr2side]
                  exact hrlive.2
                rw [hside2]
                show entryOf x ∈ heapOf ob2 inc.side.counter
                have : heapOf ob2 inc.side.counter = heapOf ob1 inc.side.counter := by
                  rw [hob2]
                  cases inc.side.counter <;> rfl
                rw [this, hg2, hr2entry]
                exact hentry1
              · have hx1 : liveRec ob1 x := by
                  refine ⟨?_, hx.2.1, hx.2.2⟩
                  have h0 := hx.1
                  rw [hob2] at h0
                  simp only at h0
                  rwa [alGet_set_ne _ _ _ _ (fun h1 => hk h1.symm)] at h0
                have h0 := hc1 x hx1
                have hhe : heapOf ob2 x.side = heapOf ob1 x.side := by
                  rw [hob2]
                  cases x.side <;> rfl
                rwa [hhe]
            · intro b s hbl hsl hbs hss hbne hsne
              have hlift : ∀ y, liveRec ob2 y → y.order_id ≠ r.order_id → liveRec ob1 y := by
                intro y hy hyne
                refine ⟨?_, hy.2.1, hy.2.2⟩
                have h0 := hy.1
                rw [hob2] at h0
                simp only at h0
                rwa [alGet_set_ne _ _ _ _ (fun h1 => hyne h1.symm)] at h0
              have hr2live : ∀ y, liveRec ob2 y → y.order_id = r.order_id → y = r2 := by
                intro y hy hyeq
                have h0 := hy.1
                rw [hob2] at h0
                simp only at h0
                rw [hyeq, alGet_set_self] at h0
                cases h0
                rfl
              have hrlive1 : liveRec ob1 r := ⟨hrget1, hrlive.1.2.1, hrlive.1.2.2⟩
              by_cases hbk : b.order_id = r.order_id
              · have hbeq := hr2live b hbl hbk
                by_cases hsk : s.order_id = r.order_id
                · have hseq := hr2live s hsl hsk
                  rw [hbeq] at hbs
                  rw [hseq] at hss
                  rw [hbs] at hss
                  cases hss
                · have hs1 := hlift s hsl hsk
                  have h0 := hux1 r s hrlive1 hs1
                    (by rw [← hr2side, ← hbeq]; exact hbs) hss
                    (by rw [← hbk]; exact hbne) hsne
                  rw [hbeq, hr2price]
                  exact h0
              · have hb1 := hlift b hbl hbk
                by_cases hsk : s.order_id = r.order_id
                · have hseq := hr2live s hsl hsk
                  have h0 := hux1 b r hb1 hrlive1 hbs
                    (by rw [← hr2side, ← hseq]; exact hss) hbne
                    (by rw [← hsk]; exact hsne)
                  rw [hseq, hr2price]
                  exact h0
                · exact hux1 b s hb1 (hlift s hsl hsk) hbs hss hbne hsne
          have hrd2 : ∃ rd, alGet ob2.orders inc2.order_id = some rd ∧ rd.side = inc2.side := by
            obtain ⟨rd, hgd, hsd⟩ := hrd
            refine ⟨rd, ?_, hsd⟩
            show alGet (alSet ob1.orders r.order_id r2) inc.order_id = some rd
            rw [alGet_set_ne _ _ _ _ hrne, hord1]
            exact hgd
          have hfuel2 : inc2.qty.toNat < fuel := by
            have h0 : inc2.qty = inc.qty - tq := rfl
            omega
          have hinv2' : LoopInv ob2 inc2.order_id := hinv2
          obtain ⟨hI, hid, hside, hprice, hseq, hver, hact, hget, hheap, hexit⟩ :=
            ih ob2 inc2 _ ob' inc' tr hfuel2 hinv2' hrd2 hres
          have hget2 : alGet ob2.orders inc.order_id = alGet ob.orders inc.order_id := by
            show alGet (alSet ob1.orders r.order_id r2) inc.order_id = _
            rw [alGet_set_ne _ _ _ _ hrne, hord1]
          have hheap2 : heapOf ob2 inc.side = heapOf ob inc.side := by
            have h0 : heapOf ob2 inc.side = heapOf ob1 inc.side := by
              rw [hob2]
              cases inc.side <;> rfl
            rw [h0, hheap1]
          exact ⟨hI, hid, hside, hprice, hseq, hver, hact,
            hget.trans hget2, hheap.trans hheap2, hexit⟩
        · -- the best does not cross: the loop stops, and by minimality
          -- nothing live on the counter side crosses either
          rw [matchLoop_nocross fuel ob inc acc hq hb
            (by simpa using hcr)] at hres
          simp only [Prod.mk.injEq] at hres
          obtain ⟨rfl, rfl, rfl⟩ := hres
          refine ⟨hbestInv, rfl, rfl, rfl, rfl, rfl, rfl, by rw [hord1], hheap1, ?_⟩
          intro _ x hx hxs
          have hxob : liveRec ob x := (liveRec_of_orders_eq hord1 x).mp hx
          have hmin := best_minKey hinv.sortedBids hinv.sortedAsks hinv.faithful
            hinv.complete hfst x hxob hxs
          have hrs : r.side = inc.side.counter := hrlive.2
          rcases hsi : inc.side with _ | _
          · -- BUY incoming, SELL resting side: price keys are the prices
            rw [hsi] at hrs hxs
            have hpk : priceKeyOf r = r.price := by
              unfold priceKeyOf
              rw [hrs]
              simp [Side.counter]
            have hpkx : priceKeyOf x = x.price := by
              unfold priceKeyOf
              rw [hxs]
              simp [Side.counter]
            rw [hpk, hpkx] at hmin
            have hlt : inc.price < r.price := by
              unfold crosses at hcr
              rw [hsi] at hcr
              simp at hcr
              linarith
            unfold crosses
            rw [hsi]
            simp
            linarith
          · -- SELL incoming, BUY resting side: price keys are negated
            rw [hsi] at hrs hxs
            have hpk : priceKeyOf r = -r.price := by
              unfold priceKeyOf
              rw [hrs]
              simp [Side.counter]
            have hpkx : priceKeyOf x = -x.price := by
              unfold priceKeyOf
              rw [hxs]
              simp [Side.counter]
            rw [hpk, hpkx] at hmin
            have hlt : r.price < inc.price := by
              unfold crosses at hcr
              rw [hsi] at hcr
              simp at hcr
              linarith
            unfold crosses
            rw [hsi]
            simp
            linarith
    · rw [matchLoop_done fuel ob inc acc hq] at hres
      simp only [Prod.mk.injEq] at hres
      obtain ⟨rfl, rfl, rfl⟩ := hres
      exact ⟨hinv, rfl, rfl, rfl, rfl, rfl, rfl, rfl, rfl,
        fun h0 => absurd h0 hq⟩

theorem setHeap_orders (ob : OrderBook) (s : Side) (h : List Entry) :
    (setHeap ob s h).orders = ob.orders := by
  cases s <;> rfl

theorem heapOf_setHeap_self (ob : OrderBook) (s : Side) (h : List Entry) :
    heapOf (setHeap ob s h) s = h := by
  cases s <;> rfl

theorem heapOf_setHeap_other (ob : OrderBook) (s : Side) (h : List Entry) (s' : Side)
    (hne : s' ≠ s) : heapOf (setHeap ob s h) s' = heapOf ob s' := by
  cases s <;> cases s' <;> first | exact absurd rfl hne | rfl

theorem push_orders (ob : OrderBook) (r : BookRec) :
    (ob.push r).orders = ob.orders :=
  setHeap_orders _ _ _

theorem heapOf_push_self (ob : OrderBook) (r : BookRec) :
    heapOf (ob.push r) r.side = hpush (heapOf ob r.side) (entryOf r) :=
  heapOf_setHeap_self _ _ _

theorem heapOf_push_other (ob : OrderBook) (r : BookRec) (s' : Side) (hne : s' ≠ r.side) :
    heapOf (ob.push r) s' = heapOf ob s' :=
  heapOf_setHeap_other _ _ _ _ hne

theorem heapOf_orders_update (ob : OrderBook) (m : List (ℕ × BookRec)) (side : Side) :
    heapOf { ob with orders := m } side = heapOf ob side := by
  cases side <;> rfl

theorem mem_heapOf_push {ob : OrderBook} {r : BookRec} {s : Side} {e : Entry}
    (he : e ∈ heapOf (ob.push r) s) : e = entryOf r ∨ e ∈ heapOf ob s := by
  by_cases hs : s = r.side
  · subst hs
    rw [heapOf_push_self] at he
    exact mem_hpush.mp he
  · rw [heapOf_push_other _ _ _ hs] at he
    exact Or.inr he

/-- The write-back of the matched incoming record restores the full
book invariant, the incoming order having been stored and pushed before
the match began. -/
theorem matchIncoming_inv {ob : OrderBook} {inc : BookRec}
    (hinv : LoopInv ob inc.order_id)
    (hget : alGet ob.orders inc.order_id = some inc)
    (hentry : entryOf inc ∈ heapOf ob inc.side) :
    Inv (matchIncoming ob inc).1 := by
  unfold matchIncoming
  rcases hres : matchLoop (inc.qty.toNat + 1) ob inc [] with ⟨ob1, inc1, tr⟩
  obtain ⟨hI, hid, hside, hprice, hseq, hver, hact, hget1, hheap1, hexit⟩ :=
    matchLoop_spec _ ob inc [] ob1 inc1 tr (by omega) hinv ⟨inc, hget, rfl⟩ hres
  simp only
  set inc2 := (if inc1.qty ≤ 0 then { inc1 with active := false } else inc1) with hinc2
  have h2id : inc2.order_id = inc.order_id := by
    rw [hinc2]; split_ifs <;> exact hid
  have h2side : inc2.side = inc.side := by
    rw [hinc2]; split_ifs <;> exact hside
  have h2price : inc2.price = inc.price := by
    rw [hinc2]; split_ifs <;> exact hprice
  have h2ver : inc2.version = inc.version := by
    rw [hinc2]; split_ifs <;> exact hver
  have h2entry : entryOf inc2 = entryOf inc := by
    unfold entryOf priceKeyOf
    rw [h2id, h2side, h2price, h2ver]
    have h2seq : inc2.seq = inc.seq := by
      rw [hinc2]; split_ifs <;> exact hseq
    rw [h2seq]
  have hfin : alGet (alSet ob1.orders inc2.order_id inc2) inc2.order_id = some inc2 :=
    alGet_set_self _ _ _
  have hget1' : alGet ob1.orders inc.order_id = some inc := by
    rw [hget1]; exact hget
  obtain ⟨hkeys1, hsb1, hsa1, hvb1, hf1, hc1, hux1⟩ := hI
  have hheapfix : ∀ s, heapOf { ob1 with orders := alSet ob1.orders inc2.order_id inc2 } s
      = heapOf ob1 s := fun s => heapOf_orders_update _ _ _
  refine ⟨?_, hsb1, hsa1, ?_, ?_, ?_, ?_⟩
  · intro k rec hg
    by_cases hk : inc2.order_id = k
    · rw [← hk] at hg ⊢
      rw [hfin] at hg
      cases hg
      rfl
    · rw [alGet_set_ne _ _ _ _ hk] at hg
      exact hkeys1 k rec hg
  · intro side e he
    rw [hheapfix] at he
    obtain ⟨rec, hg, hle⟩ := hvb1 side e he
    by_cases hk : e.oid = inc.order_id
    · refine ⟨inc2, ?_, ?_⟩
      · show alGet (alSet ob1.orders inc2.order_id inc2) e.oid = some inc2
        rw [hk, ← h2id]
        exact hfin
      · rw [hk, hget1'] at hg
        cases hg
        rw [h2ver]
        exact hle
    · refine ⟨rec, ?_, hle⟩
      show alGet (alSet ob1.orders inc2.order_id inc2) e.oid = some rec
      rw [h2id, alGet_set_ne _ _ _ _ (fun h0 => hk h0.symm)]
      exact hg
  · intro side e he rec hg hv
    rw [hheapfix] at he
    by_cases hk : e.oid = inc.order_id
    · have hrec : rec = inc2 := by
        rw [hk, ← h2id] at hg
        rw [hfin] at hg
        cases hg
        rfl
      subst hrec
      have h0 := hf1 side e he inc (by rw [hk]; exact hget1')
        (by rw [hv, h2ver])
      exact ⟨h0.1.trans h2entry.symm, h2side.trans h0.2⟩
    · have hg2 : alGet ob1.orders e.oid = some rec := by
        rw [h2id, alGet_set_ne _ _ _ _ (fun h0 => hk h0.symm)] at hg
        exact hg
      exact hf1 side e he rec hg2 hv
  · intro x hx
    rw [hheapfix]
    by_cases hk : x.order_id = inc.order_id
    · have hxeq : x = inc2 := by
        have h0 := hx.1
        rw [hk, ← h2id] at h0
        rw [hfin] at h0
        cases h0
        rfl
      have hq1 : 0 < inc1.qty := by
        by_contra hq0
        have h1 : inc2.active = false := by
          rw [hinc2, if_pos (by omega)]
        have h2 := hx.2.1
        rw [hxeq, h1] at h2
        exact absurd h2 (by simp)
      have hinc2eq : inc2 = inc1 := by
        rw [hinc2, if_neg (by omega)]
      rw [hxeq, h2entry]
      have h0 : x.side = inc.side := by rw [hxeq, h2side]
      rw [hxeq] at h0
      rw [h0, hheap1]
      exact hentry
    · have hx1 : liveRec ob1 x := by
        refine ⟨?_, hx.2.1, hx.2.2⟩
        have h0 := hx.1
        rw [h2id, alGet_set_ne _ _ _ _ (fun h1 => hk h1.symm)] at h0
        exact h0
      exact hc1 x hx1
  · intro b s hbl hsl hbs hss
    have hlift : ∀ y, liveRec { ob1 with orders := alSet ob1.orders inc2.order_id inc2 } y →
        y.order_id ≠ inc.order_id → liveRec ob1 y := by
      intro y hy hyne
      refine ⟨?_, hy.2.1, hy.2.2⟩
      have h0 := hy.1
      rw [h2id, alGet_set_ne _ _ _ _ (fun h1 => hyne h1.symm)] at h0
      exact h0
    have hisinc : ∀ y, liveRec { ob1 with orders := alSet ob1.orders inc2.order_id inc2 } y →
        y.order_id = inc.order_id → y = inc2 ∧ 0 < inc1.qty ∧ inc2 = inc1 := by
      intro y hy hyeq
      have hyeq2 : y = inc2 := by
        have h0 := hy.1
        rw [hyeq, ← h2id] at h0
        rw [hfin] at h0
        cases h0
        rfl
      have hq1 : 0 < inc1.qty := by
        by_contra hq0
        have h1 : inc2.active = false := by
          rw [hinc2, if_pos (by omega)]
        have h2 := hy.2.1
        rw [hyeq2, h1] at h2
        exact absurd h2 (by simp)
      exact ⟨hyeq2, hq1, by rw [hinc2, if_neg (by omega)]⟩
    by_cases hbk : b.order_id = inc.order_id
    · obtain ⟨hbeq, hq1, h21⟩ := hisinc b hbl hbk
      by_cases hsk : s.order_id = inc.order_id
      · obtain ⟨hseq2, -, -⟩ := hisinc s hsl hsk
        rw [hbeq] at hbs
        rw [hseq2] at hss
        rw [hbs] at hss
        cases hss
      · have hs1 := hlift s hsl hsk
        have hincB : inc.side = Side.BUY := by
          rw [hbeq, h2side] at hbs
          exact hbs
        have hcr := hexit (h21 ▸ hq1) s hs1 (by rw [hss, hincB]; rfl)
        unfold crosses at hcr
        rw [hside, hincB] at hcr
        simp at hcr
        rw [hbeq, h2price, ← hprice]
        linarith [hcr]
    · have hb1 := hlift b hbl hbk
      by_cases hsk : s.order_id = inc.order_id
      · obtain ⟨hseq2, hq1, h21⟩ := hisinc s hsl hsk
        have hincS : inc.side = Side.SELL := by
          rw [hseq2, h2side] at hss
          exact hss
        have hcr := hexit (h21 ▸ hq1) b hb1 (by rw [hbs, hincS]; rfl)
        unfold crosses at hcr
        rw [hside, hincS] at hcr
        simp at hcr
        rw [hseq2, h2price, ← hprice]
        linarith [hcr]
      · exact hux1 b s hb1 (hlift s hsl hsk) hbs hss hbk hsk

theorem heapOf_update_orders_seq (ob : OrderBook) (m : List (ℕ × BookRec)) (n : ℕ)
    (side : Side) : heapOf { ob with orders := m, seq := n } side = heapOf ob side := by
  cases side <;> rfl

/-- Inserting a fresh-version record into the map and pushing its heap
entry re-establishes the loop invariant for that record's id. -/
theorem prepared_book {ob : OrderBook} {rec : BookRec} {k : ℕ} (n : ℕ)
    (hk : rec.order_id = k) (hinv : Inv ob)
    (hver : ∀ r0, alGet ob.orders k = some r0 → r0.version < rec.version) :
    LoopInv (OrderBook.push { ob with orders := alSet ob.orders k rec, seq := n } rec)
      rec.order_id := by
  set B0 : OrderBook := { ob with orders := alSet ob.orders k rec, seq := n } with hB0
  set B : OrderBook := B0.push rec with hB
  have hBorders : B.orders = alSet ob.orders k rec := by
    rw [hB, push_orders, hB0]
  have hB0heap : ∀ s, heapOf B0 s = heapOf ob s := fun s => heapOf_update_orders_seq _ _ _ s
  have hsup : ∀ s e, e ∈ heapOf ob s → e ∈ heapOf B s := by
    intro s e he
    by_cases hs : s = rec.side
    · subst hs
      rw [hB, heapOf_push_self, hB0heap]
      exact mem_hpush.mpr (Or.inr he)
    · rw [hB, heapOf_push_other _ _ _ hs, hB0heap]
      exact he
  have hmemB : ∀ s e, e ∈ heapOf B s → e = entryOf rec ∨ e ∈ heapOf ob s := by
    intro s e he
    rcases mem_heapOf_push he with h0 | h0
    · exact Or.inl h0
    · right
      rwa [hB0heap] at h0
  have hgetB : alGet B.orders k = some rec := by
    rw [hBorders]
    exact alGet_set_self _ _ _
  have hsorted : ∀ s, List.Sorted entryLE (heapOf B s) := by
    intro s
    by_cases hs : s = rec.side
    · subst hs
      rw [hB, heapOf_push_self, hB0heap]
      exact sorted_hpush (sorted_heapOf hinv.sortedBids hinv.sortedAsks _) _
    · rw [hB, heapOf_push_other _ _ _ hs, hB0heap]
      exact sorted_heapOf hinv.sortedBids hinv.sortedAsks _
  refine ⟨?_, hsorted Side.BUY, hsorted Side.SELL, ?_, ?_, ?_, ?_⟩
  · intro k' r' hg
    rw [hBorders] at hg
    by_cases hk' : k = k'
    · rw [← hk'] at hg ⊢
      rw [alGet_set_self] at hg
      cases hg
      exact hk
    · rw [alGet_set_ne _ _ _ _ hk'] at hg
      exact hinv.keys k' r' hg
  · intro s e he
    rcases hmemB s e he with h0 | h0
    · refine ⟨rec, ?_, ?_⟩
      · rw [hBorders, h0]
        show alGet (alSet ob.orders k rec) (entryOf rec).oid = some rec
        show alGet (alSet ob.orders k rec) rec.order_id = some rec
        rw [hk]
        exact alGet_set_self _ _ _
      · rw [h0]
        exact le_refl _
    · obtain ⟨r0, hg0, hle0⟩ := hinv.verBound s e h0
      by_cases hoid : e.oid = k
      · refine ⟨rec, ?_, ?_⟩
        · rw [hBorders, hoid]
          exact alGet_set_self _ _ _
        · rw [hoid] at hg0
          have := hver r0 hg0
          omega
      · refine ⟨r0, ?_, hle0⟩
        rw [hBorders, alGet_set_ne _ _ _ _ (fun h1 => hoid h1.symm)]
        exact hg0
  · intro s e he r' hg hv
    rcases hmemB s e he with h0 | h0
    · have hr' : r' = rec := by
        rw [hBorders, h0] at hg
        have h1 : (entryOf rec).oid = rec.order_id := rfl
        rw [h1, hk, alGet_set_self] at hg
        cases hg
        rfl
      rw [hr']
      refine ⟨h0, ?_⟩
      by_cases hs : s = rec.side
      · exact hs.symm
      · exfalso
        have h1 : e ∈ heapOf ob s := by
          have h2 := he
          rw [hB, heapOf_push_other _ _ _ hs, hB0heap] at h2
          exact h2
        obtain ⟨r0, hg0, hle0⟩ := hinv.verBound s e h1
        have hoid : e.oid = k := by
          rw [h0]
          exact hk
        rw [hoid] at hg0
        have h3 := hver r0 hg0
        rw [h0] at hv
        have h4 : (entryOf rec).ver = rec.version := rfl
        rw [h0, h4] at hle0
        omega
    · by_cases hoid : e.oid = k
      · exfalso
        obtain ⟨r0, hg0, hle0⟩ := hinv.verBound s e h0
        rw [hoid] at hg0
        have h1 := hver r0 hg0
        have h2 : r' = rec := by
          rw [hBorders, hoid, alGet_set_self] at hg
          cases hg
          rfl
        rw [h2] at hv
        omega
      · have hg2 : alGet ob.orders e.oid = some r' := by
          rw [hBorders, alGet_set_ne _ _ _ _ (fun h1 => hoid h1.symm)] at hg
          exact hg
        have h0' := hinv.faithful s e h0 r' hg2 hv
        exact h0'
  · intro x hx
    by_cases hoid : x.order_id = k
    · have hxeq : x = rec := by
        have h0 := hx.1
        rw [hBorders, hoid, alGet_set_self] at h0
        cases h0
        rfl
      rw [hxeq, hB, heapOf_push_self]
      exact mem_hpush.mpr (Or.inl rfl)
    · have hx0 : liveRec ob x := by
        refine ⟨?_, hx.2.1, hx.2.2⟩
        have h0 := hx.1
        rw [hBorders, alGet_set_ne _ _ _ _ (fun h1 => hoid h1.symm)] at h0
        exact h0
      exact hsup _ _ (hinv.complete x hx0)
  · intro b s hbl hsl hbs hss hbne hsne
    have hlift : ∀ y, liveRec B y → y.order_id ≠ rec.order_id → liveRec ob y := by
      intro y hy hyne
      refine ⟨?_, hy.2.1, hy.2.2⟩
      have h0 := hy.1
      rw [hBorders, alGet_set_ne _ _ _ _ (fun h1 => hyne (by rw [← h1, hk]))] at h0
      exact h0
    exact hinv.uncrossed b s (hlift b hbl hbne) (hlift s hsl hsne) hbs hss

theorem prepared_book_get {ob : OrderBook} {rec : BookRec} {k : ℕ} (n : ℕ)
    (hk : rec.order_id = k) :
    alGet (OrderBook.push { ob with orders := alSet ob.orders k rec, seq := n } rec).orders
      rec.order_id = some rec := by
  rw [push_orders]
  show alGet (alSet ob.orders k rec) rec.order_id = some rec
  rw [hk]
  exact alGet_set_self _ _ _

theorem prepared_book_entry {ob : OrderBook} {rec : BookRec} {k : ℕ} (n : ℕ) :
    entryOf rec ∈
      heapOf (OrderBook.push { ob with orders := alSet ob.orders k rec, seq := n } rec)
        rec.side := by
  rw [heapOf_push_self]
  exact mem_hpush.mpr (Or.inl rfl)

theorem add_order_inv (ob : OrderBook) (o : IncomingOrder) (hinv : Inv ob) :
    Inv (add_order ob o).1 := by
  unfold add_order normalize
  rcases hprev : alGet ob.orders o.order_id with _ | r0
  · simp only [hprev]
    exact matchIncoming_inv
      (prepared_book _ rfl hinv (by
        intro r1 hg1
        rw [hprev] at hg1
        cases hg1))
      (prepared_book_get _ rfl)
      (prepared_book_entry _)
  · simp only [hprev]
    exact matchIncoming_inv
      (prepared_book _ rfl hinv (by
        intro r1 hg1
        rw [hprev] at hg1
        cases hg1
        show r0.version < r0.version + 1
        omega))
      (prepared_book_get _ rfl)
      (prepared_book_entry _)

theorem modify_order_inv (ob : OrderBook) (oid : ℕ) (nq : Option ℤ) (np : Option ℚ)
    (hinv : Inv ob) : Inv (modify_order ob oid nq np).1 := by
  unfold modify_order
  rcases hprev : alGet ob.orders oid with _ | r
  · simp only [hprev]
    exact hinv
  · simp only [hprev]
    by_cases hact : r.active = true
    · rw [if_pos hact]
      have hk : r.order_id = oid := hinv.keys oid r hprev
      exact matchIncoming_inv
        (prepared_book _ hk hinv (by
          intro r1 hg1
          rw [hprev] at hg1
          cases hg1
          show r.version < r.version + 1
          omega))
        (prepared_book_get _ hk)
        (prepared_book_entry _)
    · rw [if_neg hact]
      exact hinv

theorem cancel_order_inv (ob : OrderBook) (oid : ℕ) (hinv : Inv ob) :
    Inv (cancel_order ob oid).1 := by
  unfold cancel_order
  rcases hprev : alGet ob.orders oid with _ | r
  · simp only [hprev]
    exact hinv
  · simp only [hprev]
    by_cases hact : r.active = true
    · rw [if_pos hact]
      have hk : r.order_id = oid := hinv.keys oid r hprev
      set r1 : BookRec := { r with active := false, qty := 0, version := r.version + 1 }
        with hr1
      have hfix : ∀ s, heapOf { ob with orders := alSet ob.orders oid r1 } s
          = heapOf ob s := fun s => heapOf_orders_update _ _ s
      refine ⟨?_, hinv.sortedBids, hinv.sortedAsks, ?_, ?_, ?_, ?_⟩
      · intro k r' hg
        by_cases hko : oid = k
        · rw [← hko] at hg ⊢
          rw [alGet_set_self] at hg
          cases hg
          exact hk
        · rw [alGet_set_ne _ _ _ _ hko] at hg
          exact hinv.keys k r' hg
      · intro s e he
        rw [hfix] at he
        obtain ⟨r0, hg0, hle0⟩ := hinv.verBound s e he
        by_cases hoid : e.oid = oid
        · refine ⟨r1, ?_, ?_⟩
          · show alGet (alSet ob.orders oid r1) e.oid = some r1
            rw [hoid]
            exact alGet_set_self _ _ _
          · rw [hoid, hprev] at hg0
            cases hg0
            show e.ver ≤ r.version + 1
            omega
        · refine ⟨r0, ?_, hle0⟩
          show alGet (alSet ob.orders oid r1) e.oid = some r0
          rw [alGet_set_ne _ _ _ _ (fun h1 => hoid h1.symm)]
          exact hg0
      · intro s e he r' hg hv
        rw [hfix] at he
        by_cases hoid : e.oid = oid
        · exfalso
          obtain ⟨r0, hg0, hle0⟩ := hinv.verBound s e he
          rw [hoid, hprev] at hg0
          cases hg0
          have hr' : r' = r1 := by
            rw [hoid] at hg
            have h0 : alGet (alSet ob.orders oid r1) oid = some r1 := alGet_set_self _ _ _
            rw [h0] at hg
            cases hg
            rfl
          rw [hr'] at hv
          have hv' : e.ver = r.version + 1 := hv
          omega
        · have hg2 : alGet ob.orders e.oid = some r' := by
            rw [alGet_set_ne _ _ _ _ (fun h1 => hoid h1.symm)] at hg
            exact hg
          exact hinv.faithful s e he r' hg2 hv
      · intro x hx
        rw [hfix]
        by_cases hoid : x.order_id = oid
        · exfalso
          have hxeq : x = r1 := by
            have h0 := hx.1
            rw [hoid, alGet_set_self] at h0
            cases h0
            rfl
          have h1 := hx.2.1
          rw [hxeq] at h1
          have h2 : r1.active = false := rfl
          rw [h2] at h1
          cases h1
        · have hx0 : liveRec ob x := by
            refine ⟨?_, hx.2.1, hx.2.2⟩
            have h0 := hx.1
            rw [alGet_set_ne _ _ _ _ (fun h1 => hoid h1.symm)] at h0
            exact h0
          exact hinv.complete x hx0
      · intro b s hbl hsl hbs hss
        have hlift : ∀ y, liveRec { ob with orders := alSet ob.orders oid r1 } y →
            liveRec ob y := by
          intro y hy
          by_cases hoid : y.order_id = oid
          · exfalso
            have hyeq : y = r1 := by
              have h0 := hy.1
              rw [hoid, alGet_set_self] at h0
              cases h0
              rfl
            have h1 := hy.2.1
            rw [hyeq] at h1
            have h2 : r1.active = false := rfl
            rw [h2] at h1
            cases h1
          · refine ⟨?_, hy.2.1, hy.2.2⟩
            have h0 := hy.1
            rw [alGet_set_ne _ _ _ _ (fun h1 => hoid h1.symm)] at h0
            exact h0
        exact hinv.uncrossed b s (hlift b hbl) (hlift s hsl) hbs hss
    · rw [if_neg hact]
      exact hinv

theorem stepCmd_inv (ob : OrderBook) (c : Cmd) (hinv : Inv ob) : Inv (stepCmd ob c) := by
  cases c with
  | add o => exact add_order_inv ob o hinv
  | modify oid q p => exact modify_order_inv ob oid q p hinv
  | cancel oid => exact cancel_order_inv ob oid hinv

theorem inv_empty : Inv OrderBook.empty := by
  refine ⟨?_, ?_, ?_, ?_, ?_, ?_, ?_⟩
  · intro k r hg
    simp [OrderBook.empty, alGet] at hg
  · exact List.sorted_nil
  · exact List.sorted_nil
  · intro s e he
    cases s <;> simp [OrderBook.empty, heapOf] at he
  · intro s e he r hg hv
    cases s <;> simp [OrderBook.empty, heapOf] at he
  · intro r hr
    have h0 := hr.1
    simp [OrderBook.empty, alGet] at h0
  · intro b s hb hs _ _
    have h0 := hb.1
    simp [OrderBook.empty, alGet] at h0

theorem runCmds_inv (cmds : List Cmd) : Inv (runCmds cmds) := by
  suffices h : ∀ ob, Inv ob → Inv (cmds.foldl stepCmd ob) from h _ inv_empty
  induction cmds with
  | nil => intro ob h; exact h
  | cons c cs ih => intro ob h; exact ih _ (stepCmd_inv ob c h)

/-- C2: after any sequence of `add_order`, `modify_order` and
`cancel_order` calls on an initially empty book, whenever `best_bid` and
`best_ask` both return a price, the bid is strictly below the ask. -/
theorem orderbook_never_crossed (cmds : List Cmd) (p q : ℚ)
    (hb : best_bid (runCmds cmds) = some p) (ha : best_ask (runCmds cmds) = some q) :
    p < q := by
  have hinv := runCmds_inv cmds
  unfold best_bid at hb
  unfold best_ask at ha
  rcases hbb : ((runCmds cmds).best Side.BUY).1 with _ | rb
  · rw [hbb] at hb
    simp at hb
  rcases haa : ((runCmds cmds).best Side.SELL).1 with _ | ra
  · rw [haa] at ha
    simp at ha
  rw [hbb] at hb
  rw [haa] at ha
  simp at hb ha
  obtain ⟨hlb, hsb⟩ := best_sound hinv.keys hbb
  obtain ⟨hla, hsa⟩ := best_sound hinv.keys haa
  have h0 := hinv.uncrossed rb ra hlb hla hsb hsa
  rw [← hb, ← ha]
  exact h0

/-- Witness for C2 at a concrete two-order book. -/
theorem orderbook_never_crossed_witness :
    best_bid (runCmds [Cmd.add ⟨1, Side.BUY, 100, 10⟩, Cmd.add ⟨2, Side.SELL, 101, 5⟩])
        = some 100 ∧
    best_ask (runCmds [Cmd.add ⟨1, Side.BUY, 100, 10⟩, Cmd.add ⟨2, Side.SELL, 101, 5⟩])
        = some 101 ∧
    (100 : ℚ) < 101 :=
  ⟨by decide, by decide,
   orderbook_never_crossed [Cmd.add ⟨1, Side.BUY, 100, 10⟩, Cmd.add ⟨2, Side.SELL, 101, 5⟩]
     100 101 (by decide) (by decide)⟩

/-- The trade accumulator of the matching loop is a pure prefix. -/
theorem matchLoop_acc :
    ∀ (fuel : ℕ) (ob : OrderBook) (inc : BookRec) (acc : List Trade),
      (matchLoop fuel ob inc acc).2.2 = acc ++ (matchLoop fuel ob inc []).2.2 := by
  intro fuel
  induction fuel with
  | zero =>
    intro ob inc acc
    simp [matchLoop_zero]
  | succ fuel ih =>
    intro ob inc acc
    by_cases hq : 0 < inc.qty
    · rcases hb : ob.best inc.side.counter with ⟨r0, ob1⟩
      rcases r0 with _ | r
      · rw [matchLoop_none fuel ob inc acc hq hb, matchLoop_none fuel ob inc [] hq hb]
        simp
      · cases hcr : crosses inc r.price
        · rw [matchLoop_nocross fuel ob inc acc hq hb hcr,
            matchLoop_nocross fuel ob inc [] hq hb hcr]
          simp
        · rw [matchLoop_step fuel ob inc acc hq hb hcr,
            matchLoop_step fuel ob inc [] hq hb hcr]
          rw [ih]
          nth_rewrite 2 [ih]
          simp
    · rw [matchLoop_done fuel ob inc acc hq, matchLoop_done fuel ob inc [] hq]
      simp

/-- C1: every trade the matching loop generates takes the minimum of the
incoming remaining quantity and the resting quantity, priced at the
resting entry's price (shown for the trade generated from the current
best); and concretely, adding BUY(id=1, qty=10, price=100) then
SELL(id=2, qty=4, price=99) to an empty book yields exactly one trade
`{buy_id := 1, sell_id := 2, price := 100, qty := 4}` and leaves the
resting BUY with quantity 6. -/
theorem orderbook_trade_formula :
    (∀ (ob : OrderBook) (inc r : BookRec) (ob1 : OrderBook),
      0 < inc.qty →
      ob.best inc.side.counter = (some r, ob1) →
      crosses inc r.price = true →
      ∃ rest, (matchIncoming ob inc).2
        = { buy_id := if inc.side = Side.BUY then inc.order_id else r.order_id,
            sell_id := if inc.side = Side.SELL then inc.order_id else r.order_id,
            price := r.price,
            qty := min inc.qty r.qty } :: rest) ∧
    (add_order (add_order OrderBook.empty ⟨1, Side.BUY, 100, 10⟩).1
        ⟨2, Side.SELL, 99, 4⟩).2
      = [{ buy_id := 1, sell_id := 2, price := 100, qty := 4 }] ∧
    (alGet (add_order (add_order OrderBook.empty ⟨1, Side.BUY, 100, 10⟩).1
        ⟨2, Side.SELL, 99, 4⟩).1.orders 1).map (fun r => r.qty) = some 6 := by
  refine ⟨?_, by decide, by decide⟩
  intro ob inc r ob1 hq hb hcr
  show ∃ rest, (matchLoop (inc.qty.toNat + 1) ob inc []).2.2 = _ :: rest
  rw [matchLoop_step inc.qty.toNat ob inc [] hq hb hcr, matchLoop_acc]
  simp only [List.nil_append, List.singleton_append]
  exact ⟨_, rfl⟩

/-- Witness for C1's general conjunct: the concrete SELL against a resting
BUY produces as first trade the minimum quantity at the resting price. -/
theorem orderbook_trade_formula_witness :
    ∃ rest,
      (matchIncoming (add_order OrderBook.empty ⟨1, Side.BUY, 100, 10⟩).1
        ⟨2, Side.SELL, 99, 4, true, 2, 1⟩).2
      = { buy_id := if (Side.SELL : Side) = Side.BUY then 2 else 1,
          sell_id := if (Side.SELL : Side) = Side.SELL then 2 else 1,
          price := 100,
          qty := min (4 : ℤ) 10 } :: rest :=
  orderbook_trade_formula.1
    (add_order OrderBook.empty ⟨1, Side.BUY, 100, 10⟩).1
    ⟨2, Side.SELL, 99, 4, true, 2, 1⟩
    ⟨1, Side.BUY, 100, 10, true, 1, 1⟩
    (add_order OrderBook.empty ⟨1, Side.BUY, 100, 10⟩).1
    (by decide) (by decide) (by decide)

/-- A record stored as inactive never appears on either side of a trade
generated by the matching loop (for an incoming order with a different
id). -/
theorem matchLoop_trades_avoid :
    ∀ (fuel : ℕ) (ob : OrderBook) (inc : BookRec) (acc : List Trade) (oid : ℕ)
      (r1 : BookRec),
      KeysOk ob → alGet ob.orders oid = some r1 → r1.active = false →
      inc.order_id ≠ oid →
      ∀ t ∈ (matchLoop fuel ob inc acc).2.2, t ∈ acc ∨ (t.buy_id ≠ oid ∧ t.sell_id ≠ oid) := by
  intro fuel
  induction fuel with
  | zero =>
    intro ob inc acc oid r1 _ _ _ _ t ht
    rw [matchLoop_zero] at ht
    exact Or.inl ht
  | succ fuel ih =>
    intro ob inc acc oid r1 hkeys hget hdead hne t ht
    by_cases hq : 0 < inc.qty
    · rcases hb : ob.best inc.side.counter with ⟨r0, ob1⟩
      have hord1 : ob1.orders = ob.orders := by
        have h0 := best_snd_orders ob inc.side.counter
        rwa [hb] at h0
      rcases r0 with _ | r
      · rw [matchLoop_none fuel ob inc acc hq hb] at ht
        exact Or.inl ht
      · have hfst : (ob.best inc.side.counter).1 = some r := by rw [hb]
        have hrlive := best_sound hkeys hfst
        have hrne : r.order_id ≠ oid := by
          intro he
          have h0 : alGet ob.orders oid = some r := by
            rw [← he]
            exact hrlive.1.1
          have h1 : r.active = true := hrlive.1.2.1
          rw [hget] at h0
          cases h0
          rw [hdead] at h1
          cases h1
        cases hcr : crosses inc r.price
        · rw [matchLoop_nocross fuel ob inc acc hq hb hcr] at ht
          exact Or.inl ht
        · rw [matchLoop_step fuel ob inc acc hq hb hcr] at ht
          have hkeys1 : KeysOk ob1 := by
            intro k rr hg
            rw [hord1] at hg
            exact hkeys k rr hg
          have hkeys2 : KeysOk { ob1 with
              orders :=
                alSet ob1.orders r.order_id
                  (if r.qty - min inc.qty r.qty ≤ 0 then
                    { r with qty := r.qty - min inc.qty r.qty, active := false }
                   else { r with qty := r.qty - min inc.qty r.qty }) } := by
            intro k rr hg
            by_cases hk : r.order_id = k
            · rw [← hk] at hg ⊢
              have h0 := alGet_set_self ob1.orders r.order_id
                (if r.qty - min inc.qty r.qty ≤ 0 then
                  { r with qty := r.qty - min inc.qty r.qty, active := false }
                 else { r with qty := r.qty - min inc.qty r.qty })
              rw [h0] at hg
              cases hg
              split_ifs <;> rfl
            · have h0 := alGet_set_ne ob1.orders r.order_id k
                (if r.qty - min inc.qty r.qty ≤ 0 then
                  { r with qty := r.qty - min inc.qty r.qty, active := false }
                 else { r with qty := r.qty - min inc.qty r.qty }) hk
              rw [h0] at hg
              exact hkeys1 k rr hg
          have hget2 : alGet (alSet ob1.orders r.order_id
              (if r.qty - min inc.qty r.qty ≤ 0 then
                { r with qty := r.qty - min inc.qty r.qty, active := false }
               else { r with qty := r.qty - min inc.qty r.qty })) oid = some r1 := by
            rw [alGet_set_ne _ _ _ _ hrne, hord1]
            exact hget
          have hrec := ih _ ({ inc with qty := inc.qty - min inc.qty r.qty }) _ oid r1
            hkeys2 hget2 hdead hne t ht
          rcases hrec with hin | hok
          · rcases List.mem_append.mp hin with hin2 | hin2
            · exact Or.inl hin2
            · right
              have ht0 : t =
                  { buy_id := if inc.side = Side.BUY then inc.order_id else r.order_id,
                    sell_id := if inc.side = Side.SELL then inc.order_id else r.order_id,
                    price := r.price,
                    qty := min inc.qty r.qty } := by
                simpa using hin2
              rw [ht0]
              constructor
              · by_cases hs : inc.side = Side.BUY <;> simp [hs, hne, hrne]
              · by_cases hs : inc.side = Side.SELL <;> simp [hs, hne, hrne]
          · exact Or.inr hok
    · rw [matchLoop_done fuel ob inc acc hq] at ht
      exact Or.inl ht

/-- C10: `cancel_order` returns false and leaves the book unchanged on an
unknown or inactive id; on an active order it returns true and stores the
record deactivated with zero quantity and a bumped version; `_best` only
ever returns active records (so a cancelled order never backs
`best_bid`/`best_ask`), `depth` only aggregates active records, and a
record stored inactive never appears in a trade generated by a later
match of another order. -/
theorem cancel_order_contract :
    (∀ (ob : OrderBook) (oid : ℕ), alGet ob.orders oid = none →
      cancel_order ob oid = (ob, false)) ∧
    (∀ (ob : OrderBook) (oid : ℕ) (r : BookRec), alGet ob.orders oid = some r →
      r.active = false → cancel_order ob oid = (ob, false)) ∧
    (∀ (ob : OrderBook) (oid : ℕ) (r : BookRec), alGet ob.orders oid = some r →
      r.active = true →
      (cancel_order ob oid).2 = true ∧
      alGet (cancel_order ob oid).1.orders oid
        = some { r with active := false, qty := 0, version := r.version + 1 }) ∧
    (∀ (ob : OrderBook) (side : Side) (r : BookRec), (ob.best side).1 = some r →
      r.active = true) ∧
    (∀ (ob : OrderBook) (r : BookRec), r ∈ depthRecs ob → r.active = true) ∧
    (∀ (fuel : ℕ) (ob : OrderBook) (inc : BookRec) (oid : ℕ) (r1 : BookRec),
      KeysOk ob → alGet ob.orders oid = some r1 → r1.active = false →
      inc.order_id ≠ oid →
      ∀ t ∈ (matchLoop fuel ob inc []).2.2, t.buy_id ≠ oid ∧ t.sell_id ≠ oid) := by
  refine ⟨?_, ?_, ?_, ?_, ?_, ?_⟩
  · intro ob oid h
    unfold cancel_order
    simp only [h]
  · intro ob oid r h hact
    unfold cancel_order
    simp only [h]
    rw [if_neg (by simp [hact])]
  · intro ob oid r h hact
    unfold cancel_order
    simp only [h]
    rw [if_pos hact]
    exact ⟨rfl, alGet_set_self _ _ _⟩
  · intro ob side r hres
    rw [best_fst] at hres
    rcases hba : bestAux ob.orders side (heapOf ob side) with ⟨r0, h2⟩
    rw [hba] at hres
    cases hres
    obtain ⟨pre, hsplit, hpre, e, t, h2eq, hval⟩ :=
      bestAux_some_spec _ _ _ h2 r hba
    exact (validEntry_some hval).2.1
  · intro ob r hmem
    unfold depthRecs at hmem
    rw [List.mem_filter] at hmem
    have h0 := hmem.2
    simp at h0
    exact h0.1
  · intro fuel ob inc oid r1 hkeys hget hdead hne t ht
    rcases matchLoop_trades_avoid fuel ob inc [] oid r1 hkeys hget hdead hne t ht with
      hin | hok
    · exact absurd hin (by simp)
    · exact hok

/-- Witness for C10 at a concrete cancel of a resting order. -/
theorem cancel_order_contract_witness :
    (cancel_order (add_order OrderBook.empty ⟨1, Side.BUY, 100, 10⟩).1 1).2 = true ∧
    alGet (cancel_order (add_order OrderBook.empty ⟨1, Side.BUY, 100, 10⟩).1 1).1.orders 1
      = some ⟨1, Side.BUY, 100, 0, false, 1, 2⟩ :=
  cancel_order_contract.2.2.1 (add_order OrderBook.empty ⟨1, Side.BUY, 100, 10⟩).1 1
    ⟨1, Side.BUY, 100, 10, true, 1, 1⟩ (by decide) rfl

end TradingSystem
